import Mathlib

/-!
Verification development for the Mermaid diagram-syntax normalizer of
`src/components/Mermaid.tsx`.  Strings are modelled as `List Char`; every
JavaScript helper is translated into an executable Lean function operating on
character lists, and the regular expressions of the source are translated into
deterministic scanners implementing their exact matching semantics.
-/

set_option maxRecDepth 20000

/-! ### Character classes and basic string utilities -/

/-- Backslash character. -/
def bslash : Char := Char.ofNat 92

/-- Double-quote character. -/
def dquote : Char := Char.ofNat 34

/-- Single-quote character. -/
def squote : Char := Char.ofNat 39

/-- Left curly brace. -/
def lbrace : Char := Char.ofNat 123

/-- Right curly brace. -/
def rbrace : Char := Char.ofNat 125

/-- Newline character. -/
def nlChar : Char := Char.ofNat 10

/-- JavaScript regex word character class `\w` = `[A-Za-z0-9_]`. -/
def isWordChar (c : Char) : Bool :=
  decide ((97 ≤ c.toNat ∧ c.toNat ≤ 122) ∨ (65 ≤ c.toNat ∧ c.toNat ≤ 90) ∨
    (48 ≤ c.toNat ∧ c.toNat ≤ 57) ∨ c.toNat = 95)

/-- JavaScript whitespace class `\s` (also the class stripped by `trim`). -/
def isSpaceChar (c : Char) : Bool :=
  decide (c.toNat = 32 ∨ c.toNat = 9 ∨ c.toNat = 10 ∨ c.toNat = 13 ∨
    c.toNat = 12 ∨ c.toNat = 11 ∨ c.toNat = 160)

/-- Characters allowed in the `[\w\s]` class of the sequence-diagram regexes. -/
def isWordOrSpace (c : Char) : Bool := isWordChar c || isSpaceChar c

/-- JavaScript `String.prototype.trim`, left part. -/
def trimLeft (l : List Char) : List Char := l.dropWhile isSpaceChar

/-- JavaScript `String.prototype.trim`, right part. -/
def trimRight (l : List Char) : List Char := (l.reverse.dropWhile isSpaceChar).reverse

/-- JavaScript `String.prototype.trim`. -/
def jsTrim (l : List Char) : List Char := trimRight (trimLeft l)

/-- JavaScript `String.prototype.includes`: substring containment. -/
def containsSub (s pat : List Char) : Bool :=
  match s with
  | [] => pat.isPrefixOf ([] : List Char)
  | c :: t => pat.isPrefixOf (c :: t) || containsSub t pat

/-- Split a string at newline characters, exactly as `String.prototype.split('\n')`. -/
def splitLinesCh : List Char → List (List Char)
  | [] => [[]]
  | c :: r =>
    if c = nlChar then [] :: splitLinesCh r
    else
      match splitLinesCh r with
      | [] => [[c]]
      | h :: t => (c :: h) :: t

/-- Join lines with newline characters, exactly as `Array.prototype.join('\n')`. -/
def joinLinesCh : List (List Char) → List Char
  | [] => []
  | [l] => l
  | l :: ls => l ++ nlChar :: joinLinesCh ls

/-! ### Label validator: `checkLabelBracketBalance` (Mermaid.tsx) -/

/-- Opening bracket delimiters counted by the validator. -/
def isOpenDelim (c : Char) : Bool := c == '(' || c == '[' || c == lbrace

/-- Closing bracket delimiters counted by the validator. -/
def isCloseDelim (c : Char) : Bool := c == ')' || c == ']' || c == rbrace

/-- Loop of `checkLabelBracketBalance`, with the mutable loop state
(`openCount`, `closeCount`, `inSingleQuote`, `inDoubleQuote`, `escaped`)
made explicit. -/
def clbbLoop : List Char → Nat → Nat → Bool → Bool → Bool → Bool
  | [], oc, cc, _, _, _ => oc == cc
  | c :: rest, oc, cc, sq, dq, esc =>
    if esc then clbbLoop rest oc cc sq dq false
    else if c == bslash then clbbLoop rest oc cc sq dq true
    else if c == squote && !dq then clbbLoop rest oc cc (!sq) dq false
    else if c == dquote && !sq then clbbLoop rest oc cc sq (!dq) false
    else if (!sq && !dq) && isOpenDelim c then clbbLoop rest (oc + 1) cc sq dq false
    else if (!sq && !dq) && isCloseDelim c then clbbLoop rest oc (cc + 1) sq dq false
    else clbbLoop rest oc cc sq dq false

/-- Source function `checkLabelBracketBalance`: bracket balance of a label,
ignoring quoted spans and backslash-escaped characters. -/
def checkLabelBracketBalance (label : List Char) : Bool :=
  clbbLoop label 0 0 false false false

mutual

/-- Specification-side extraction of the delimiters that count: a backslash
makes the following character literal (dropped entirely), quote characters
toggle the single/double quote state independently, and delimiter characters
are kept only outside every quoted span. -/
def countedDelims : List Char → Bool → Bool → List Char
  | [], _, _ => []
  | c :: rest, sq, dq =>
    if c == bslash then countedDelimsEsc rest sq dq
    else if c == squote && !dq then countedDelims rest (!sq) dq
    else if c == dquote && !sq then countedDelims rest sq (!dq)
    else if (!sq && !dq) && (isOpenDelim c || isCloseDelim c) then c :: countedDelims rest sq dq
    else countedDelims rest sq dq

/-- Helper of `countedDelims`: the character after a backslash is literal and
is skipped without being counted and without toggling quote state. -/
def countedDelimsEsc : List Char → Bool → Bool → List Char
  | [], _, _ => []
  | _ :: r2, sq, dq => countedDelims r2 sq dq

end

/-- Specification-side balance predicate: among the counted delimiters, the
number of opening brackets equals the number of closing brackets (the empty
label is balanced). -/
def bracketBalanceSpec (label : List Char) : Bool :=
  ((countedDelims label false false).countP isOpenDelim) ==
    ((countedDelims label false false).countP isCloseDelim)

lemma clbbLoop_escaped (c : Char) (rest : List Char) (oc cc : Nat) (sq dq : Bool) :
    clbbLoop (c :: rest) oc cc sq dq true = clbbLoop rest oc cc sq dq false := by
  simp [clbbLoop]

lemma delim_open_not_close (c : Char) (h : isOpenDelim c = true) : isCloseDelim c = false := by
  simp only [isOpenDelim, Bool.or_eq_true, beq_iff_eq] at h
  rcases h with (h | h) | h <;> subst h <;> decide

lemma clbbLoop_eq_spec : ∀ (n : Nat) (l : List Char), l.length ≤ n →
    ∀ (oc cc : Nat) (sq dq : Bool),
    clbbLoop l oc cc sq dq false =
      ((oc + (countedDelims l sq dq).countP isOpenDelim) ==
        (cc + (countedDelims l sq dq).countP isCloseDelim)) := by
  intro n
  induction n with
  | zero =>
    intro l hl oc cc sq dq
    have : l = [] := List.length_eq_zero.mp (Nat.le_zero.mp hl)
    subst this
    simp [clbbLoop, countedDelims]
  | succ n ih =>
    intro l hl oc cc sq dq
    match l with
    | [] => simp [clbbLoop, countedDelims]
    | c :: rest =>
      by_cases hbs : (c == bslash) = true
      · match rest with
        | [] => simp [clbbLoop, countedDelims, countedDelimsEsc, hbs]
        | d :: r2 =>
          have hlen : r2.length ≤ n := by
            simp only [List.length_cons] at hl
            omega
          have hstep : clbbLoop (c :: d :: r2) oc cc sq dq false =
              clbbLoop r2 oc cc sq dq false := by
            simp [clbbLoop, hbs]
          have hcd : countedDelims (c :: d :: r2) sq dq = countedDelims r2 sq dq := by
            simp [countedDelims, countedDelimsEsc, hbs]
          rw [hstep, hcd]
          exact ih r2 hlen oc cc sq dq
      · have hlen : rest.length ≤ n := by
          simp only [List.length_cons] at hl
          omega
        by_cases hsq : (c == squote && !dq) = true
        · have hstep : clbbLoop (c :: rest) oc cc sq dq false =
              clbbLoop rest oc cc (!sq) dq false := by
            simp [clbbLoop, hbs, hsq]
          have hcd : countedDelims (c :: rest) sq dq = countedDelims rest (!sq) dq := by
            simp [countedDelims, hbs, hsq]
          rw [hstep, hcd]
          exact ih rest hlen oc cc (!sq) dq
        · by_cases hdq : (c == dquote && !sq) = true
          · have hstep : clbbLoop (c :: rest) oc cc sq dq false =
                clbbLoop rest oc cc sq (!dq) false := by
              simp [clbbLoop, hbs, hsq, hdq]
            have hcd : countedDelims (c :: rest) sq dq = countedDelims rest sq (!dq) := by
              simp [countedDelims, hbs, hsq, hdq]
            rw [hstep, hcd]
            exact ih rest hlen oc cc sq (!dq)
          · by_cases hop : ((!sq && !dq) && isOpenDelim c) = true
            · rcases Bool.and_eq_true_iff.mp hop with ⟨h1, h2⟩
              have hcls : isCloseDelim c = false := delim_open_not_close c h2
              have hstep : clbbLoop (c :: rest) oc cc sq dq false =
                  clbbLoop rest (oc + 1) cc sq dq false := by
                simp [clbbLoop, hbs, hsq, hdq, hop]
              have hcd : countedDelims (c :: rest) sq dq = c :: countedDelims rest sq dq := by
                simp [countedDelims, hbs, hsq, hdq, h1, h2]
              rw [hstep, hcd, ih rest hlen (oc + 1) cc sq dq]
              simp only [List.countP_cons, h2, hcls, if_true, if_false, Bool.false_eq_true]
              congr 1 <;> omega
            · by_cases hcl : ((!sq && !dq) && isCloseDelim c) = true
              · rcases Bool.and_eq_true_iff.mp hcl with ⟨h1, h2⟩
                have hopf : isOpenDelim c = false := by
                  cases hB : isOpenDelim c
                  · rfl
                  · rw [delim_open_not_close c hB] at h2
                    exact absurd h2 Bool.false_ne_true
                have hstep : clbbLoop (c :: rest) oc cc sq dq false =
                    clbbLoop rest oc (cc + 1) sq dq false := by
                  simp [clbbLoop, hbs, hsq, hdq, hop, hcl]
                have hcd : countedDelims (c :: rest) sq dq = c :: countedDelims rest sq dq := by
                  simp [countedDelims, hbs, hsq, hdq, h1, h2]
                rw [hstep, hcd, ih rest hlen oc (cc + 1) sq dq]
                simp only [List.countP_cons, h2, hopf, if_true, if_false, Bool.false_eq_true]
                congr 1 <;> omega
              · have hor : ((!sq && !dq) && (isOpenDelim c || isCloseDelim c)) = false := by
                  cases hA : (!sq && !dq)
                  · simp
                  · rw [hA] at hop hcl
                    simp only [Bool.true_and] at hop hcl
                    have hB : isOpenDelim c = false := by
                      cases hX : isOpenDelim c
                      · rfl
                      · exact absurd hX hop
                    have hC : isCloseDelim c = false := by
                      cases hX : isCloseDelim c
                      · rfl
                      · exact absurd hX hcl
                    simp [hB, hC]
                have hstep : clbbLoop (c :: rest) oc cc sq dq false =
                    clbbLoop rest oc cc sq dq false := by
                  simp [clbbLoop, hbs, hsq, hdq, hop, hcl]
                have hcd : countedDelims (c :: rest) sq dq = countedDelims rest sq dq := by
                  simp [countedDelims, hbs, hsq, hdq, hor]
                rw [hstep, hcd]
                exact ih rest hlen oc cc sq dq

theorem checkLabelBracketBalance_eq_spec (l : List Char) :
    checkLabelBracketBalance l = bracketBalanceSpec l := by
  have := clbbLoop_eq_spec l.length l (Nat.le_refl _) 0 0 false false
  simpa [checkLabelBracketBalance, bracketBalanceSpec] using this

/-- C9: `checkLabelBracketBalance` returns true exactly when the label's
bracket delimiters are balanced, where quoted spans are not counted, a
backslash makes the following character literal, quote state toggles
independently for single and double quotes, and the empty label is balanced;
moreover `"(unbalanced"` is unbalanced, `"CMD [\"yarn\", \"start\"]"` is
balanced, and `"\[escaped\]"` is balanced. -/
theorem C9_checkLabelBracketBalance_spec :
    (∀ l : List Char, checkLabelBracketBalance l = bracketBalanceSpec l)
    ∧ checkLabelBracketBalance (("(unbalanced").data) = false
    ∧ checkLabelBracketBalance (("CMD [\"yarn\", \"start\"]").data) = true
    ∧ checkLabelBracketBalance (("\\[escaped\\]").data) = true
    ∧ checkLabelBracketBalance ([] : List Char) = true :=
  ⟨checkLabelBracketBalance_eq_spec, by decide, by decide, by decide, by decide⟩

/-! ### Label escaping of the first `MermaidConverter` iteration -/

/-- Source `escapeQuotes`: `text.replace(/"/g, '\\"')`. -/
def escapeQuotesCh : List Char → List Char
  | [] => []
  | c :: r => if c == dquote then bslash :: dquote :: escapeQuotesCh r else c :: escapeQuotesCh r

/-- Colon replacement `escaped.replace(/:/g, '&#58;')` inside
`escapeLabelForMermaid`. -/
def replaceColons : List Char → List Char
  | [] => []
  | c :: r => if c == ':' then ("&#58;").data ++ replaceColons r else c :: replaceColons r

/-- Source `escapeLabelForMermaid` (first iteration of `MermaidConverter`):
escape double quotes, then, when the escaped text contains `://`, replace
every colon with the HTML entity `&#58;`. -/
def escapeLabelForMermaid (text : List Char) : List Char :=
  let escaped := escapeQuotesCh text
  if containsSub escaped (("://").data) then replaceColons escaped else escaped

/-- Source `createNodeConversion` (first iteration): emit the canonical
`nodeId@{ shape: <shape>, label: "<escaped label>" }` token. -/
def createNodeConversion (nodeId shape label : List Char) : List Char :=
  nodeId ++ ("@\x7b shape: ").data ++ shape ++ (", label: \"").data ++
    escapeLabelForMermaid (jsTrim label) ++ ("\" \x7d").data

lemma isPrefixOf_escapeQuotes (p : List Char) (hq : ∀ c ∈ p, c ≠ dquote)
    (hb : ∀ c ∈ p, c ≠ bslash) :
    ∀ t : List Char, p.isPrefixOf (escapeQuotesCh t) = p.isPrefixOf t := by
  induction p with
  | nil => intro t; simp [List.isPrefixOf]
  | cons c p' ih =>
    intro t
    match t with
    | [] => simp [escapeQuotesCh]
    | a :: t1 =>
      by_cases ha : (a == dquote) = true
      · have haq : a = dquote := beq_iff_eq.mp ha
        have hc1 : (c == bslash) = false := by
          have := hb c (List.mem_cons_self c p')
          simpa using this
        have hc2 : (c == dquote) = false := by
          have := hq c (List.mem_cons_self c p')
          simpa using this
        simp [escapeQuotesCh, ha, List.isPrefixOf, hc1, haq, hc2]
      · have hstep : escapeQuotesCh (a :: t1) = a :: escapeQuotesCh t1 := by
          simp [escapeQuotesCh, ha]
        have ih' := ih (fun c hc => hq c (List.mem_cons_of_mem _ hc))
          (fun c hc => hb c (List.mem_cons_of_mem _ hc)) t1
        simp [hstep, List.isPrefixOf, ih']

lemma containsSub_escapeQuotes_sep (t : List Char) :
    containsSub (escapeQuotesCh t) (("://").data) = containsSub t (("://").data) := by
  have hq : ∀ c ∈ ("://").data, c ≠ dquote := by decide
  have hb : ∀ c ∈ ("://").data, c ≠ bslash := by decide
  induction t with
  | nil => simp [escapeQuotesCh]
  | cons a t1 ih =>
    by_cases ha : (a == dquote) = true
    · have haq : a = dquote := beq_iff_eq.mp ha
      have h1 : (("://").data).isPrefixOf (bslash :: dquote :: escapeQuotesCh t1) = false := by
        simp [List.isPrefixOf, bslash]
      have h2 : (("://").data).isPrefixOf (dquote :: escapeQuotesCh t1) = false := by
        simp [List.isPrefixOf, dquote]
      have h3 : (("://").data).isPrefixOf (dquote :: t1) = false := by
        simp [List.isPrefixOf, dquote]
      simp [escapeQuotesCh, ha, containsSub, h1, h2, haq, h3, ih]
    · have hstep : escapeQuotesCh (a :: t1) = a :: escapeQuotesCh t1 := by
        simp [escapeQuotesCh, ha]
      have hpre := isPrefixOf_escapeQuotes (("://").data) hq hb (a :: t1)
      rw [hstep] at hpre
      simp [hstep, containsSub, hpre, ih]

lemma colon_not_mem_replaceColons (l : List Char) : ¬ (':' ∈ replaceColons l) := by
  induction l with
  | nil => simp [replaceColons]
  | cons c r ih =>
    by_cases hc : (c == ':') = true
    · simp only [replaceColons, hc, if_true]
      intro hmem
      rcases List.mem_append.mp hmem with h | h
      · revert h; decide
      · exact ih h
    · have hcc : ¬ (c = ':') := by
        intro h
        subst h
        simp at hc
      simp only [replaceColons, hc, Bool.false_eq_true, if_false]
      intro hmem
      rcases List.mem_cons.mp hmem with h | h
      · exact hcc h.symm
      · exact ih h

/-- C10: when a matched node's trimmed label text contains `://`, every colon
of the (quote-escaped) label is replaced by the entity `&#58;` in the emitted
canonical token, so no colon survives; a label without `://` has only its
double quotes escaped and is otherwise emitted verbatim after trimming. -/
theorem C10_escapeLabelForMermaid_urls (nodeId shape label : List Char) :
    (containsSub (jsTrim label) (("://").data) = true →
      createNodeConversion nodeId shape label =
        nodeId ++ ("@\x7b shape: ").data ++ shape ++ (", label: \"").data ++
          replaceColons (escapeQuotesCh (jsTrim label)) ++ ("\" \x7d").data)
    ∧ (containsSub (jsTrim label) (("://").data) = false →
      createNodeConversion nodeId shape label =
        nodeId ++ ("@\x7b shape: ").data ++ shape ++ (", label: \"").data ++
          escapeQuotesCh (jsTrim label) ++ ("\" \x7d").data)
    ∧ (∀ l : List Char, ¬ (':' ∈ replaceColons l)) := by
  refine ⟨?_, ?_, colon_not_mem_replaceColons⟩
  · intro h
    have hc : containsSub (escapeQuotesCh (jsTrim label)) (("://").data) = true := by
      rw [containsSub_escapeQuotes_sep]; exact h
    simp [createNodeConversion, escapeLabelForMermaid, hc]
  · intro h
    have hc : containsSub (escapeQuotesCh (jsTrim label)) (("://").data) = false := by
      rw [containsSub_escapeQuotes_sep]; exact h
    simp [createNodeConversion, escapeLabelForMermaid, hc]

/-- Witness for C10 at concrete inputs exercising both branches. -/
theorem C10_escapeLabelForMermaid_urls_witness :
    createNodeConversion (("A").data) (("rect").data) (("http://x").data) =
      ("A@\x7b shape: rect, label: \"http&#58;//x\" \x7d").data
    ∧ createNodeConversion (("A").data) (("rect").data) (("plain").data) =
      ("A@\x7b shape: rect, label: \"plain\" \x7d").data := by
  constructor
  · rw [(C10_escapeLabelForMermaid_urls (("A").data) (("rect").data)
      (("http://x").data)).1 (by decide)]
    decide
  · rw [(C10_escapeLabelForMermaid_urls (("A").data) (("rect").data)
      (("plain").data)).2.1 (by decide)]
    decide

/-! ### Diagram classifier of the second `MermaidConverter` iteration -/

/-- Lowercase a string as `String.prototype.toLowerCase`. -/
def toLowerCh (l : List Char) : List Char := l.map Char.toLower

/-- Source `detectDiagramType`: inspect the first line of the trimmed source,
lowercased, and classify by keyword containment (the first matching keyword in
source order wins). -/
def detectDiagramType (mermaidCode : List Char) : List Char :=
  let firstLine := toLowerCh ((splitLinesCh (jsTrim mermaidCode)).headI)
  if containsSub firstLine (("sequencediagram").data) then ("sequence").data
  else if containsSub firstLine (("flowchart").data) then ("flowchart").data
  else if containsSub firstLine (("graph").data) then ("graph").data
  else if containsSub firstLine (("classDiagram").data) then ("class").data
  else if containsSub firstLine (("stateDiagram").data) then ("state").data
  else if containsSub firstLine (("erDiagram").data) then ("er").data
  else if containsSub firstLine (("gantt").data) then ("gantt").data
  else if containsSub firstLine (("pie").data) then ("pie").data
  else if containsSub firstLine (("gitGraph").data) then ("git").data
  else ("unknown").data

/-! ### Edge-label quoting (pipe labels) -/

/-- Split at the first `|` character: `pipeSplit l = some (ct, rest)` when
`l = ct ++ pipe :: rest` with no pipe inside `ct`. -/
def pipeSplit : List Char → Option (List Char × List Char)
  | [] => none
  | c :: r =>
    if c == '|' then some ([], r)
    else
      match pipeSplit r with
      | none => none
      | some (ct, rest) => some (c :: ct, rest)

lemma pipeSplit_length : ∀ (l ct rest : List Char),
    pipeSplit l = some (ct, rest) → rest.length < l.length := by
  intro l
  induction l with
  | nil => intro ct rest h; simp [pipeSplit] at h
  | cons c r ih =>
    intro ct rest h
    by_cases hc : (c == '|') = true
    · simp [pipeSplit, hc] at h
      rw [← h.2]
      simp
    · simp only [pipeSplit, hc, Bool.false_eq_true, if_false] at h
      match hr : pipeSplit r with
      | none => rw [hr] at h; exact absurd h (by simp)
      | some (ct2, rest2) =>
        rw [hr] at h
        simp at h
        have := ih ct2 rest2 hr
        rw [← h.2]
        simp
        omega

/-- Generic scanner for the global regex replace `\|([^|]+)\|`: scan left to
right, and at each pipe with a following pipe and nonempty intervening
content, apply the callback to the content and continue after the closing
pipe (an empty content makes the regex engine advance one position).  The
fuel argument, always at least the text length plus one, only makes the
recursion structural. -/
def pipeScanF (cb : List Char → List Char) : Nat → List Char → List Char
  | 0, l => l
  | _ + 1, [] => []
  | fuel + 1, c :: rest =>
    if c == '|' then
      match pipeSplit rest with
      | none => c :: rest
      | some (content, rest2) =>
        if content.isEmpty then c :: pipeScanF cb fuel rest
        else cb content ++ pipeScanF cb fuel rest2
    else c :: pipeScanF cb fuel rest

/-- Edge-label replacement over a whole line. -/
def pipeScan (cb : List Char → List Char) (l : List Char) : List Char :=
  pipeScanF cb (l.length + 1) l

/-- Callback of the second iteration (`processFlowchartDiagram`): an already
quoted label is returned as the whole match; a bare label is trimmed, its
quotes escaped, and wrapped in double quotes. -/
def pipeCallbackV2 (label : List Char) : List Char :=
  let t := jsTrim label
  let q := (match t with | [] => false | c :: _ => c == dquote) &&
    (match t.getLast? with | none => false | some c => c == dquote)
  if q then '|' :: label ++ ['|']
  else '|' :: dquote :: escapeQuotesCh t ++ [dquote, '|']

/-- Callback of the first iteration (`toNewSyntax`): every label is trimmed,
quote-escaped and wrapped, with no already-quoted check. -/
def pipeCallbackV1 (label : List Char) : List Char :=
  '|' :: dquote :: escapeQuotesCh (jsTrim label) ++ [dquote, '|']

/-! ### Shape scanners of the second iteration -/

lemma dropWhile_len_le (p : Char → Bool) (l : List Char) :
    (l.dropWhile p).length ≤ l.length :=
  (List.dropWhile_sublist (p := p) (l := l)).length_le

/-- Scanner segments: `(text before the match, node id, label content)`. -/
abbrev SegList := List (List Char × List Char × List Char)

/-- Prepend plain text to a scanner result. -/
def consText (t : List Char) : SegList × List Char → SegList × List Char
  | ([], tl) => ([], t ++ tl)
  | ((b, w, ct) :: segs, tl) => ((t ++ b, w, ct) :: segs, tl)

/-- Greedy content matcher for a pattern `[^X]+` followed by the literal
closing delimiter `cl`, where `X` is the first character of `cl`: the content
is the maximal run of characters different from `X`; it must be nonempty and
be followed by `cl`. -/
def greedyContent (cl : List Char) (l : List Char) : Option (List Char × List Char) :=
  let content := l.takeWhile (fun d => !(d == cl.headI))
  let rest := l.dropWhile (fun d => !(d == cl.headI))
  if content.isEmpty then none
  else if cl.isPrefixOf rest then some (content, rest.drop cl.length) else none

lemma greedyContent_le {cl l ct r2 : List Char} (h : greedyContent cl l = some (ct, r2)) :
    r2.length ≤ l.length := by
  unfold greedyContent at h
  dsimp only at h
  split_ifs at h with h1 h2
  simp only [Option.some.injEq, Prod.mk.injEq] at h
  have hd : (l.dropWhile (fun d => !(d == cl.headI))).length ≤ l.length :=
    dropWhile_len_le _ l
  rw [← h.2]
  simp only [List.length_drop]
  omega

lemma drop_len_le (n : Nat) (l : List Char) : (l.drop n).length ≤ l.length := by
  simp [List.length_drop]

lemma scan_dec1 {p : Char → Bool} {c : Char} {l : List Char} (hw : p c = true) :
    ((c :: l).dropWhile p).length < l.length + 1 := by
  rw [List.dropWhile_cons, if_pos hw]
  have := dropWhile_len_le p l
  omega

/-- Scanner for the simple shape regexes `(\w+)OPEN([^X]+)CLOSE` of the
second iteration: a match needs a maximal word run immediately followed by the
literal opening delimiter, a valid greedy content and the closing delimiter;
on failure the engine advances, which is equivalent to emitting the word run
and rescanning from the character after it.  Fuelled structural recursion. -/
def shapeScanGF (opn cl : List Char) : Nat → List Char → SegList × List Char
  | 0, l => ([], l)
  | _ + 1, [] => ([], [])
  | fuel + 1, c :: rest =>
    if isWordChar c then
      if opn.isPrefixOf ((c :: rest).dropWhile isWordChar) then
        match greedyContent cl (((c :: rest).dropWhile isWordChar).drop opn.length) with
        | some (ct, r2) =>
          match shapeScanGF opn cl fuel r2 with
          | (segs, tl) => (([], (c :: rest).takeWhile isWordChar, ct) :: segs, tl)
        | none =>
          consText ((c :: rest).takeWhile isWordChar)
            (shapeScanGF opn cl fuel ((c :: rest).dropWhile isWordChar))
      else
        consText ((c :: rest).takeWhile isWordChar)
          (shapeScanGF opn cl fuel ((c :: rest).dropWhile isWordChar))
    else consText [c] (shapeScanGF opn cl fuel rest)

/-- Simple-shape scan over a whole line. -/
def shapeScanG (opn cl : List Char) (l : List Char) : SegList × List Char :=
  shapeScanGF opn cl (l.length + 1) l

/-- Split off the maximal run of non-bracket characters (for the rectangle
regex `(\w+)\[([^\[\]]*(?:\[[^\[\]]*\][^\[\]]*)*)\]`). -/
def rectSeg (l : List Char) : List Char × List Char :=
  (l.takeWhile (fun d => !(d == '[') && !(d == ']')),
   l.dropWhile (fun d => !(d == '[') && !(d == ']')))

/-- Parser for the rectangle content: segments of non-bracket characters
interleaved with fully bracketed groups `[...]` (one nesting level), ended by
the closing `]`; returns the accumulated content and the text after the
closing bracket.  Fuelled structural recursion. -/
def rectRepsF : Nat → List Char → List Char → Option (List Char × List Char)
  | 0, _, _ => none
  | fuel + 1, acc, l =>
    match l with
    | ']' :: rest => some (acc, rest)
    | '[' :: r2 =>
      match (rectSeg r2).2 with
      | ']' :: r4 =>
        rectRepsF fuel (acc ++ '[' :: (rectSeg r2).1 ++ ']' :: (rectSeg r4).1) ((rectSeg r4).2)
      | _ => none
    | _ => none

/-- Content matcher for the rectangle shape: possibly empty content with one
level of nested brackets, ended by the closing bracket. -/
def rectContent (l : List Char) : Option (List Char × List Char) :=
  rectRepsF (l.length + 1) (rectSeg l).1 (rectSeg l).2

lemma rectRepsF_le : ∀ (fuel : Nat) (acc l ct r : List Char),
    rectRepsF fuel acc l = some (ct, r) → r.length ≤ l.length := by
  intro fuel
  induction fuel with
  | zero => intro acc l ct r h; simp [rectRepsF] at h
  | succ fuel ih =>
    intro acc l ct r h
    match l with
    | [] => simp [rectRepsF] at h
    | c :: rest =>
      by_cases hc1 : c = ']'
      · subst hc1
        simp only [rectRepsF, Option.some.injEq, Prod.mk.injEq] at h
        rw [← h.2]
        simp
      · by_cases hc2 : c = '['
        · subst hc2
          rw [rectRepsF] at h
          split at h
          · rename_i r4 hr3
            have hr4 : r4.length < (rectSeg rest).2.length := by
              rw [hr3]
              simp
            have hseg : ((rectSeg rest).2).length ≤ rest.length := by
              simp only [rectSeg]
              exact dropWhile_len_le _ rest
            have hseg4 : ((rectSeg r4).2).length ≤ r4.length := by
              simp only [rectSeg]
              exact dropWhile_len_le _ r4
            have := ih _ _ _ _ h
            simp only [List.length_cons]
            omega
          · exact absurd h (by simp)
        · rw [rectRepsF] at h
          · exact absurd h (by simp)
          · intro rs hEq
            injection hEq with h1 _
            exact hc1 h1
          · intro rs hEq
            injection hEq with h1 _
            exact hc2 h1

lemma rectContent_le {l ct r : List Char} (h : rectContent l = some (ct, r)) :
    r.length ≤ l.length := by
  unfold rectContent at h
  have hseg : ((rectSeg l).2).length ≤ l.length := by
    simp only [rectSeg]
    exact dropWhile_len_le _ l
  have := rectRepsF_le _ _ _ _ _ h
  omega

/-- Scanner for the rectangle regex of the second iteration
`(\w+)\[([^\[\]]*(?:\[[^\[\]]*\][^\[\]]*)*)\]`.  Fuelled structural
recursion. -/
def shapeScanRectF : Nat → List Char → SegList × List Char
  | 0, l => ([], l)
  | _ + 1, [] => ([], [])
  | fuel + 1, c :: rest =>
    if isWordChar c then
      if (['[']).isPrefixOf ((c :: rest).dropWhile isWordChar) then
        match rectContent (((c :: rest).dropWhile isWordChar).drop 1) with
        | some (ct, r2) =>
          match shapeScanRectF fuel r2 with
          | (segs, tl) => (([], (c :: rest).takeWhile isWordChar, ct) :: segs, tl)
        | none =>
          consText ((c :: rest).takeWhile isWordChar)
            (shapeScanRectF fuel ((c :: rest).dropWhile isWordChar))
      else
        consText ((c :: rest).takeWhile isWordChar)
          (shapeScanRectF fuel ((c :: rest).dropWhile isWordChar))
    else consText [c] (shapeScanRectF fuel rest)

/-- Rectangle scan over a whole line. -/
def shapeScanRect (l : List Char) : SegList × List Char :=
  shapeScanRectF (l.length + 1) l

/-! ### Node definitions of the second iteration -/

/-- Node definition map of the second iteration: association list in key
insertion order (a JavaScript `Map`); setting an existing key updates the
value in place. -/
abbrev NodeMap := List (List Char × List Char)

/-- JavaScript `Map.prototype.set`. -/
def mapSet (m : NodeMap) (k v : List Char) : NodeMap :=
  match m with
  | [] => [(k, v)]
  | (k2, v2) :: rest => if k2 = k then (k2, v) :: rest else (k2, v2) :: mapSet rest k v

/-- Marker suffix `_MARKER_` of the second iteration. -/
def markerStr : List Char := ("_MARKER_").data

/-- Rebuild a scanned line, substituting `nodeId_MARKER_` for each match. -/
def rebuildSegs : SegList → List Char → List Char
  | [], tl => tl
  | (b, w, _) :: segs, tl => b ++ w ++ markerStr ++ rebuildSegs segs tl

/-- Record the conversion of every match in the node definition map, in match
order. -/
def addDefs (convF : List Char → List Char) (m : NodeMap) (segs : SegList) : NodeMap :=
  segs.foldl (fun m2 sg => mapSet m2 sg.2.1 (convF sg.2.2)) m

/-- Conversion emitted by the simple shape processors of the second iteration:
`@{ shape: <shape>, label: "<trimmed label>" }` (no escaping). -/
def convSimpleV2 (shape label : List Char) : List Char :=
  ("@\x7b shape: ").data ++ shape ++ (", label: \"").data ++ jsTrim label ++ ("\" \x7d").data

/-- Conversion emitted by `processRectangleShape`: quotes in the trimmed label
are escaped when present. -/
def convRectV2 (label : List Char) : List Char :=
  let cleanLabel := jsTrim label
  let cleanLabel2 := if containsSub cleanLabel [dquote] then escapeQuotesCh cleanLabel
    else cleanLabel
  ("@\x7b shape: rect, label: \"").data ++ cleanLabel2 ++ ("\" \x7d").data

/-- Global replacement of a literal pattern, as
`String.prototype.replace(new RegExp(pat, 'g'), repl)` for a pattern without
metacharacters: scan left to right, replace every occurrence, never rescanning
replaced text.  Fuelled structural recursion. -/
def replaceAllSubF : Nat → List Char → List Char → List Char → List Char
  | 0, text, _, _ => text
  | fuel + 1, text, pat, repl =>
    match text with
    | [] => []
    | c :: rest =>
      if pat.isPrefixOf (c :: rest) && !pat.isEmpty then
        repl ++ replaceAllSubF fuel ((c :: rest).drop pat.length) pat repl
      else c :: replaceAllSubF fuel rest pat repl

/-- Global literal replacement over a whole string. -/
def replaceAllSub (text pat repl : List Char) : List Char :=
  replaceAllSubF (text.length + 1) text pat repl

/-- Source `replaceMarkersWithConversions` (second iteration): for each map
entry in insertion order, replace every `nodeId_MARKER_` occurrence with
`nodeId` followed by its conversion. -/
def replaceMarkersV2 (line : List Char) (m : NodeMap) : List Char :=
  m.foldl (fun acc kv => replaceAllSub acc (kv.1 ++ markerStr) (kv.1 ++ kv.2)) line

/-- Shape pass of the second iteration: either a simple pattern with literal
delimiters or the rectangle pattern with nested-bracket content. -/
inductive ShapePassV2 where
  | simple (opn cl shape : List Char)
  | rectK

/-- Run one shape pass over the line, threading the node definition map. -/
def runShapePassV2 (p : ShapePassV2) (st : List Char × NodeMap) : List Char × NodeMap :=
  match p with
  | .simple opn cl shape =>
    match shapeScanG opn cl st.1 with
    | (segs, tl) => (rebuildSegs segs tl, addDefs (convSimpleV2 shape) st.2 segs)
  | .rectK =>
    match shapeScanRect st.1 with
    | (segs, tl) => (rebuildSegs segs tl, addDefs convRectV2 st.2 segs)

/-- Shape passes of `processNodeDefinitions` (second iteration), in source
order. -/
def shapePassesV2 : List ShapePassV2 :=
  [ .simple (("(((").data) ((")))").data) (("doublecircle").data),
    .simple (("[[").data) (("]]").data) (("subroutine").data),
    .simple [lbrace, lbrace] [rbrace, rbrace] (("hex").data),
    .simple (("[/").data) (("/]").data) (("lean-r").data),
    .simple ['[', bslash] [bslash, ']'] (("lean-l").data),
    .simple (("[/").data) [bslash, ']'] (("trap-t").data),
    .simple ['[', bslash] (("/]").data) (("trap-b").data),
    .simple (("[(").data) ((")]").data) (("cyl").data),
    .simple (("([").data) (("])").data) (("stadium").data),
    .simple (("((").data) (("))").data) (("circle").data),
    .rectK,
    .simple [lbrace] [rbrace] (("diam").data),
    .simple ((">").data) (("]").data) (("odd").data),
    .simple (("(").data) ((")").data) (("rounded").data) ]

/-- Source `processNodeDefinitions` (second iteration): run the shape passes
in order, then replace all markers with their conversions. -/
def processNodeDefinitionsV2 (line : List Char) : List Char :=
  match shapePassesV2.foldl (fun st p => runShapePassV2 p st) (line, ([] : NodeMap)) with
  | (l, m) => replaceMarkersV2 l m

/-- Canonical shape token marker used by the idempotence guard and the label
validator. -/
def shapeTokSub : List Char := ("@\x7b shape:").data

/-- Per-line processing of `processFlowchartDiagram` (second iteration):
blank lines and lines already containing a canonical shape token pass
through; otherwise edge labels are quoted and node definitions converted. -/
def processFlowLineV2 (line : List Char) : List Char :=
  if (jsTrim line).isEmpty then line
  else if containsSub line shapeTokSub then line
  else processNodeDefinitionsV2 (pipeScan pipeCallbackV2 line)

/-- Source `processFlowchartDiagram` (second iteration).  The call to
`validateFlowchartLabels` in the source only logs a warning and does not
change the returned lines. -/
def processFlowchartDiagramV2 (lines : List (List Char)) : List (List Char) :=
  lines.map processFlowLineV2

/-! ### Lazy scanner for non-greedy `(.+?)` contents -/

/-- Lazy content matcher for `(.+?)` followed by the literal closing
delimiter `cl`: the shortest nonempty content such that `cl` follows. -/
def lazyFind (cl : List Char) : List Char → Option (List Char × List Char)
  | [] => none
  | c :: r =>
    if cl.isPrefixOf r then some ([c], r.drop cl.length)
    else
      match lazyFind cl r with
      | none => none
      | some (ct, rest) => some (c :: ct, rest)

lemma lazyFind_lt : ∀ (l : List Char) {cl ct rest : List Char},
    lazyFind cl l = some (ct, rest) → rest.length < l.length := by
  intro l
  induction l with
  | nil => intro cl ct rest h; simp [lazyFind] at h
  | cons c r ih =>
    intro cl ct rest h
    by_cases hp : cl.isPrefixOf r = true
    · simp only [lazyFind, hp, if_true, Option.some.injEq, Prod.mk.injEq] at h
      have := drop_len_le cl.length r
      rw [← h.2]
      simp only [List.length_cons]
      omega
    · simp only [lazyFind, hp, Bool.false_eq_true, if_false] at h
      match hr : lazyFind cl r with
      | none => rw [hr] at h; exact absurd h (by simp)
      | some (ct2, rest2) =>
        rw [hr] at h
        simp only [Option.some.injEq, Prod.mk.injEq] at h
        have := ih hr
        rw [← h.2]
        simp only [List.length_cons]
        omega

/-- Scanner for the lazy regexes `(\w+)OPEN(.+?)CLOSE`, used by the simple
shape patterns of the first iteration and by `handleEscapedCharacters`.
Fuelled structural recursion. -/
def shapeScanLF (opn cl : List Char) : Nat → List Char → SegList × List Char
  | 0, l => ([], l)
  | _ + 1, [] => ([], [])
  | fuel + 1, c :: rest =>
    if isWordChar c then
      if opn.isPrefixOf ((c :: rest).dropWhile isWordChar) then
        match lazyFind cl (((c :: rest).dropWhile isWordChar).drop opn.length) with
        | some (ct, r2) =>
          match shapeScanLF opn cl fuel r2 with
          | (segs, tl) => (([], (c :: rest).takeWhile isWordChar, ct) :: segs, tl)
        | none =>
          consText ((c :: rest).takeWhile isWordChar)
            (shapeScanLF opn cl fuel ((c :: rest).dropWhile isWordChar))
      else
        consText ((c :: rest).takeWhile isWordChar)
          (shapeScanLF opn cl fuel ((c :: rest).dropWhile isWordChar))
    else consText [c] (shapeScanLF opn cl fuel rest)

/-- Lazy-shape scan over a whole line. -/
def shapeScanL (opn cl : List Char) (l : List Char) : SegList × List Char :=
  shapeScanLF opn cl (l.length + 1) l

/-- Rebuild a scanned line with an arbitrary per-match replacement built from
the node id and the content. -/
def rebuildRepl (f : List Char → List Char → List Char) : SegList → List Char → List Char
  | [], tl => tl
  | (b, w, ct) :: segs, tl => b ++ f w ct ++ rebuildRepl f segs tl

/-! ### `handleEscapedCharacters` -/

/-- Per-line body of `handleEscapedCharacters`: resolve
`id[\[text\]]` to `id["[text]"]`, `id\{text\}` to `id["{text}"]`, and unescape
remaining escaped brackets and braces. -/
def hecLine (line : List Char) : List Char :=
  let r1 :=
    match shapeScanL ['[', bslash, '['] [bslash, ']', ']'] line with
    | (segs, tl) =>
      rebuildRepl (fun w ct => w ++ ("[\"[").data ++ ct ++ ("]\"]").data) segs tl
  let r2 :=
    match shapeScanL [bslash, lbrace] [bslash, rbrace] r1 with
    | (segs, tl) =>
      rebuildRepl (fun w ct => w ++ ('[' :: dquote :: lbrace :: ct) ++
        [rbrace, dquote, ']']) segs tl
  let r3 := replaceAllSub r2 [bslash, '['] ['[']
  let r4 := replaceAllSub r3 [bslash, ']'] [']']
  let r5 := replaceAllSub r4 [bslash, lbrace] [lbrace]
  replaceAllSub r5 [bslash, rbrace] [rbrace]

/-- Source `handleEscapedCharacters`: line-by-line, skipping blank lines and
`graph`/`flowchart` headers. -/
def handleEscapedCharacters (chart : List Char) : List Char :=
  joinLinesCh ((splitLinesCh chart).map (fun line =>
    if (jsTrim line).isEmpty || (("graph").data).isPrefixOf (jsTrim line) ||
        (("flowchart").data).isPrefixOf (jsTrim line) then line
    else hecLine line))

/-! ### Label extraction for validation -/

mutual

/-- Content matcher for the label regex `label: "((?:[^"\\]|\\.)*)"`: collect
characters up to the first unescaped double quote, treating a backslash and
its following character as one element. -/
def labelContentScan : List Char → Option (List Char × List Char)
  | [] => none
  | c :: r =>
    if c == dquote then some ([], r)
    else if c == bslash then
      match labelContentScanEsc r with
      | none => none
      | some (ct, rest) => some (c :: ct, rest)
    else
      match labelContentScan r with
      | none => none
      | some (ct, rest) => some (c :: ct, rest)

/-- Helper of `labelContentScan` for the character following a backslash. -/
def labelContentScanEsc : List Char → Option (List Char × List Char)
  | [] => none
  | d :: r2 =>
    match labelContentScan r2 with
    | none => none
    | some (ct, rest) => some (d :: ct, rest)

end

lemma labelContentScan_lt : ∀ (n : Nat) (l : List Char), l.length ≤ n →
    (∀ {ct rest : List Char},
      labelContentScan l = some (ct, rest) → rest.length < l.length)
    ∧ (∀ {ct rest : List Char},
      labelContentScanEsc l = some (ct, rest) → rest.length < l.length) := by
  intro n
  induction n with
  | zero =>
    intro l hl
    have : l = [] := List.length_eq_zero.mp (Nat.le_zero.mp hl)
    subst this
    constructor
    · intro ct rest h
      simp [labelContentScan] at h
    · intro ct rest h
      simp [labelContentScanEsc] at h
  | succ n ih =>
    intro l hl
    constructor
    · intro ct rest h
      match l with
      | [] => simp [labelContentScan] at h
      | c :: r =>
        have hlen : r.length ≤ n := by
          simp only [List.length_cons] at hl
          omega
        by_cases hq : (c == dquote) = true
        · simp only [labelContentScan, hq, if_true, Option.some.injEq, Prod.mk.injEq] at h
          rw [← h.2]
          simp
        · by_cases hb : (c == bslash) = true
          · simp only [labelContentScan, hq, hb, Bool.false_eq_true, if_false, if_true] at h
            match hr : labelContentScanEsc r with
            | none => rw [hr] at h; exact absurd h (by simp)
            | some (ct2, rest2) =>
              rw [hr] at h
              simp only [Option.some.injEq, Prod.mk.injEq] at h
              have := (ih r hlen).2 hr
              rw [← h.2]
              simp only [List.length_cons]
              omega
          · simp only [labelContentScan, hq, hb, Bool.false_eq_true, if_false] at h
            match hr : labelContentScan r with
            | none => rw [hr] at h; exact absurd h (by simp)
            | some (ct2, rest2) =>
              rw [hr] at h
              simp only [Option.some.injEq, Prod.mk.injEq] at h
              have := (ih r hlen).1 hr
              rw [← h.2]
              simp only [List.length_cons]
              omega
    · intro ct rest h
      match l with
      | [] => simp [labelContentScanEsc] at h
      | d :: r2 =>
        have hlen : r2.length ≤ n := by
          simp only [List.length_cons] at hl
          omega
        simp only [labelContentScanEsc] at h
        match hr : labelContentScan r2 with
        | none => rw [hr] at h; exact absurd h (by simp)
        | some (ct2, rest2) =>
          rw [hr] at h
          simp only [Option.some.injEq, Prod.mk.injEq] at h
          have := (ih r2 hlen).1 hr
          rw [← h.2]
          simp only [List.length_cons]
          omega

/-- Literal `label: "` searched by the label-extraction regex. -/
def labelLit : List Char := ("label: \"").data

/-- Global matcher for `label: "((?:[^"\\]|\\.)*)"`: collect the contents of
every label occurrence, scanning left to right and continuing after each
match (on an unclosed content the engine advances one position).  Fuelled
structural recursion. -/
def extractLabelsF : Nat → List Char → List (List Char)
  | 0, _ => []
  | fuel + 1, s =>
    if labelLit.isPrefixOf s then
      match labelContentScan (s.drop 8) with
      | some (ct, rest) => ct :: extractLabelsF fuel rest
      | none =>
        match s with
        | [] => []
        | _ :: t => extractLabelsF fuel t
    else
      match s with
      | [] => []
      | _ :: t => extractLabelsF fuel t

/-- Label extraction over a whole chart. -/
def extractLabels (s : List Char) : List (List Char) :=
  extractLabelsF (s.length + 1) s

/-- Source `validateFlowchartLabels` (second iteration): every extracted label
either contains a nested canonical shape token (skipped) or passes the
bracket-balance check. -/
def validateFlowchartLabelsV2 (chart : List Char) : Bool :=
  (extractLabels chart).all (fun label =>
    containsSub label shapeTokSub || checkLabelBracketBalance label)

/-! ### Sequence-diagram converter (second iteration) -/

/-- Arrow alternation `(--?>>|\->>)` of the activation regexes: either
`-->>` or `->>`. -/
def seqArrow (l : List Char) : Option (List Char × List Char) :=
  if (("-->>").data).isPrefixOf l then some ((("-->>").data), l.drop 4)
  else if (("->>").data).isPrefixOf l then some ((("->>").data), l.drop 3)
  else none

/-- Matcher for the tail `\s*([\w\s]+?)\s*:\s*(.+)$` of the activation
regexes: the `to` capture is the lazily matched word-and-space run before the
first colon, and the message is the greedy remainder after it.  The returned
pair is `(to, message)` with the raw captures. -/
def seqToMsg (u : List Char) : Option (List Char × List Char) :=
  let v := u.takeWhile (fun d => !(d == ':'))
  match u.dropWhile (fun d => !(d == ':')) with
  | [] => none
  | _ :: afterColon =>
    if !(v.all isWordOrSpace) then none
    else
      let core := v.dropWhile isSpaceChar
      let toCapture :=
        if core.isEmpty then
          match v.getLast? with
          | none => none
          | some c => some [c]
        else some (trimRight core)
      match toCapture with
      | none => none
      | some tc =>
        let m2 := afterColon.dropWhile isSpaceChar
        if !m2.isEmpty then some (tc, m2)
        else
          match afterColon.getLast? with
          | none => none
          | some c => some (tc, [c])

/-- Matcher for `\s*ARROW<sign>` followed by the tail, starting right after
the `from` capture. -/
def seqTail (sign : Char) (r : List Char) : Option (List Char × List Char × List Char) :=
  match seqArrow (r.dropWhile isSpaceChar) with
  | none => none
  | some (arrow, r2) =>
    match r2 with
    | [] => none
    | c :: r3 =>
      if c == sign then
        match seqToMsg r3 with
        | none => none
        | some (tc, msg) => some (arrow, tc, msg)
      else none

/-- Lazy search for the `from` capture `([\w\s]+?)`: expand one character at
a time (word or space characters only) until the arrow-and-tail parse
succeeds. -/
def seqFromAux (sign : Char) (acc : List Char) : List Char →
    Option (List Char × List Char × List Char × List Char)
  | [] => none
  | c :: r =>
    if isWordOrSpace c then
      match seqTail sign r with
      | some (arrow, tc, msg) => some (acc ++ [c], arrow, tc, msg)
      | none => seqFromAux sign (acc ++ [c]) r
    else none

/-- Backtracking over the greedy indent `^(\s*)`: try the maximal whitespace
prefix first, then hand one whitespace character at a time back to the `from`
capture.  The first argument holds the remaining indent reversed. -/
def seqIndentAux (sign : Char) : List Char → List Char →
    Option (List Char × List Char × List Char × List Char × List Char)
  | w1rev, rest =>
    match seqFromAux sign [] rest with
    | some (f, a, tc, m) => some (w1rev.reverse, f, a, tc, m)
    | none =>
      match w1rev with
      | [] => none
      | c :: w1rev2 => seqIndentAux sign w1rev2 (c :: rest)

/-- Matcher for the activation regexes
`^(\s*)([\w\s]+?)\s*(--?>>|\->>)<sign>\s*([\w\s]+?)\s*:\s*(.+)$` with
`sign = '+'` (activate) or `sign = '-'` (deactivate); returns the raw
captures `(indent, from, arrow, to, message)`. -/
def seqMatch (sign : Char) (line : List Char) : Option (List Char × List Char × List Char × List Char × List Char) :=
  seqIndentAux sign (line.takeWhile isSpaceChar).reverse (line.dropWhile isSpaceChar)

/-- Per-participant activation stacks: association list in key insertion
order, each stack a list with its top at the end (JavaScript array
push/pop). -/
abbrev StackMap := List (List Char × List Nat)

/-- Push a line index onto a participant's stack, creating the stack when
absent. -/
def stacksPush (st : StackMap) (k : List Char) (i : Nat) : StackMap :=
  match st with
  | [] => [(k, [i])]
  | (k2, s) :: rest => if k2 = k then (k2, s ++ [i]) :: rest else (k2, s) :: stacksPush rest k i

/-- Pop the top of a participant's stack. -/
def stacksPop (st : StackMap) (k : List Char) : StackMap :=
  match st with
  | [] => []
  | (k2, s) :: rest => if k2 = k then (k2, s.dropLast) :: rest else (k2, s) :: stacksPop rest k

/-- Lookup a participant's stack. -/
def stacksGet (st : StackMap) (k : List Char) : Option (List Nat) :=
  match st with
  | [] => none
  | (k2, s) :: rest => if k2 = k then some s else stacksGet rest k

/-- First pass of `normalizeSequenceActivations`: push activation line
indices, pop on paired deactivations, and strip the close-marker from a
deactivation whose sender has no pending activation. -/
def normPass1 : List (List Char) → Nat → StackMap → List (List Char) × StackMap
  | [], _, st => ([], st)
  | line :: rest, i, st =>
    match seqMatch '+' line with
    | some (_, _, _, tc, _) =>
      match normPass1 rest (i + 1) (stacksPush st (jsTrim tc) i) with
      | (ls, stf) => (line :: ls, stf)
    | none =>
      match seqMatch '-' line with
      | some (ind, f, a, tc, m) =>
        match stacksGet st (jsTrim f) with
        | some s =>
          if 0 < s.length then
            match normPass1 rest (i + 1) (stacksPop st (jsTrim f)) with
            | (ls, stf) => (line :: ls, stf)
          else
            match normPass1 rest (i + 1) st with
            | (ls, stf) => ((ind ++ f ++ a ++ tc ++ (": ").data ++ m) :: ls, stf)
        | none =>
          match normPass1 rest (i + 1) st with
          | (ls, stf) => ((ind ++ f ++ a ++ tc ++ (": ").data ++ m) :: ls, stf)
      | none =>
        match normPass1 rest (i + 1) st with
        | (ls, stf) => (line :: ls, stf)

/-- Strip the open-activation marker from a line that matches the activation
regex (used by the second pass). -/
def stripActivate (line : List Char) : List Char :=
  match seqMatch '+' line with
  | some (ind, f, a, tc, m) => ind ++ f ++ a ++ tc ++ (": ").data ++ m
  | none => line

/-- Second pass of `normalizeSequenceActivations`: every line index still on
any stack denotes an unmatched activation; strip its open-marker. -/
def normPass2 (st : StackMap) (res : List (List Char)) : List (List Char) :=
  st.foldl (fun r kv =>
    kv.2.foldl (fun r2 idx => r2.set idx (stripActivate (r2.getD idx []))) r) res

/-- Source `normalizeSequenceActivations`. -/
def normalizeSequenceActivations (lines : List (List Char)) : List (List Char) :=
  match normPass1 lines 0 [] with
  | (res, st) => normPass2 st res

/-- Arrow alternation `(->>\+?|-->>\-?|->>|-->>|-x|->|-->)` of the message
regex, with the fall-through behaviour of the regex engine resolved: the
optional `+`/`-` is taken when present, and a failing longer alternative can
never be rescued by a shorter one because the following `[\w\s]+` capture
cannot start at the leftover arrow character. -/
def msgArrowParse (l : List Char) : Option (List Char × List Char) :=
  if (("->>").data).isPrefixOf l then
    match l.drop 3 with
    | '+' :: r => some ((("->>+").data), r)
    | _ => some ((("->>").data), l.drop 3)
  else if (("-->>").data).isPrefixOf l then
    match l.drop 4 with
    | '-' :: r => some ((("-->>-").data), r)
    | _ => some ((("-->>").data), l.drop 4)
  else if (("-x").data).isPrefixOf l then some ((("-x").data), l.drop 2)
  else if (("->").data).isPrefixOf l then some ((("->").data), l.drop 2)
  else if (("-->").data).isPrefixOf l then some ((("-->").data), l.drop 3)
  else none

/-- Matcher for the message regex
`^(\s*)([\w\s]+)(->>\+?|-->>\-?|->>|-->>|-x|->|-->)([\w\s]+):\s*(.+)$` with
greedy captures; returns `(indent, from, arrow, to, message)`. -/
def msgMatch (line : List Char) : Option (List Char × List Char × List Char × List Char × List Char) :=
  let t := line.takeWhile isWordOrSpace
  match msgArrowParse (line.dropWhile isWordOrSpace) with
  | none => none
  | some (arrow, r2) =>
    if t.isEmpty then none
    else
      let w1 := line.takeWhile isSpaceChar
      let fromRaw := t.drop w1.length
      match (if fromRaw.isEmpty then
          match t.getLast? with
          | none => none
          | some c => some (t.dropLast, [c])
        else some (w1, fromRaw)) with
      | none => none
      | some (ind, f) =>
        let g4 := r2.takeWhile isWordOrSpace
        if g4.isEmpty then none
        else
          match r2.dropWhile isWordOrSpace with
          | ':' :: afterColon =>
            let m2 := afterColon.dropWhile isSpaceChar
            if !m2.isEmpty then some (ind, f, arrow, g4, m2)
            else
              match afterColon.getLast? with
              | none => none
              | some c => some (ind, f, arrow, g4, [c])
          | _ => none

/-- Semicolon escaping of the sequence converter: `;` becomes `#59;`. -/
def escapeSemis : List Char → List Char
  | [] => []
  | c :: r => if c == ';' then ("#59;").data ++ escapeSemis r else c :: escapeSemis r

/-- Per-line body of `processSequenceDiagram` after normalization. -/
def processSeqLine (line : List Char) : List Char :=
  match msgMatch line with
  | some (ind, f, a, tc, m) => ind ++ f ++ a ++ tc ++ (": ").data ++ escapeSemis m
  | none => line

/-- Source `processSequenceDiagram`: normalize activations, then escape
semicolons inside message bodies. -/
def processSequenceDiagram (lines : List (List Char)) : List (List Char) :=
  (normalizeSequenceActivations lines).map processSeqLine

/-! ### Orchestration (second iteration) -/

/-- Source `toNewSyntax` (second iteration): dispatch on the detected diagram
type; `sequence` goes to the sequence converter and every other
classification (including `unknown`) to the flowchart converter. -/
def toNewSyntaxV2 (mermaidCode : List Char) : List Char :=
  let lines := splitLinesCh mermaidCode
  let diagramType := detectDiagramType mermaidCode
  let processedLines :=
    if diagramType = ("sequence").data then processSequenceDiagram lines
    else processFlowchartDiagramV2 lines
  joinLinesCh processedLines

/-- Escape pre-pass condition of `preprocessChart`: the chart contains at
least one escaped bracket or brace. -/
def hasEscapeSeq (chart : List Char) : Bool :=
  containsSub chart [bslash, '['] || containsSub chart [bslash, ']'] ||
    containsSub chart [bslash, lbrace] || containsSub chart [bslash, rbrace]

/-- Source `preprocessChart` (second iteration): escape pre-pass when needed,
then conversion; the surrounding try/catch is modelled by
`preprocessChartTry`. -/
def preprocessChartV2 (chart : List Char) : List Char :=
  let processedChart := if hasEscapeSeq chart then handleEscapedCharacters chart else chart
  toNewSyntaxV2 processedChart

/-- Orchestration boundary of `preprocessChart`: the conversion body runs
inside a try/catch, and any exception is caught and the original chart
returned verbatim. -/
def preprocessChartTry (body : List Char → Except (List Char) (List Char))
    (chart : List Char) : List Char :=
  match body chart with
  | Except.ok r => r
  | Except.error _ => chart

/-! ### First `MermaidConverter` iteration -/

/-- Source `findMatchingBracket` / `findMatchingParenthesis`, rephrased on the
text after the opening delimiter with current depth `d`: find the closing
delimiter that returns the depth to zero.  (In `findMatchingParenthesis` the
`inBraces`/`inBrackets` counters are computed but never read, so they do not
affect the result.) -/
def depthFindAux (oC cC : Char) (d : Nat) : List Char → Option (List Char × List Char)
  | [] => none
  | c :: r =>
    if c == cC then
      if d = 1 then some ([], r)
      else
        match depthFindAux oC cC (d - 1) r with
        | none => none
        | some (ct, rest) => some (c :: ct, rest)
    else if c == oC then
      match depthFindAux oC cC (d + 1) r with
      | none => none
      | some (ct, rest) => some (c :: ct, rest)
    else
      match depthFindAux oC cC d r with
      | none => none
      | some (ct, rest) => some (c :: ct, rest)

lemma depthFindAux_lt : ∀ (l : List Char) {oC cC : Char} {d : Nat} {ct rest : List Char},
    depthFindAux oC cC d l = some (ct, rest) → rest.length < l.length := by
  intro l
  induction l with
  | nil => intro oC cC d ct rest h; simp [depthFindAux] at h
  | cons c r ih =>
    intro oC cC d ct rest h
    by_cases hc : (c == cC) = true
    · by_cases hd : d = 1
      · simp only [depthFindAux, hc, hd, if_true, Option.some.injEq, Prod.mk.injEq] at h
        rw [← h.2]
        simp
      · simp only [depthFindAux, hc, hd, if_true, if_false] at h
        match hr : depthFindAux oC cC (d - 1) r with
        | none => rw [hr] at h; exact absurd h (by simp)
        | some (ct2, rest2) =>
          rw [hr] at h
          simp only [Option.some.injEq, Prod.mk.injEq] at h
          have := ih hr
          rw [← h.2]
          simp only [List.length_cons]
          omega
    · by_cases ho : (c == oC) = true
      · simp only [depthFindAux, hc, ho, Bool.false_eq_true, if_false, if_true] at h
        match hr : depthFindAux oC cC (d + 1) r with
        | none => rw [hr] at h; exact absurd h (by simp)
        | some (ct2, rest2) =>
          rw [hr] at h
          simp only [Option.some.injEq, Prod.mk.injEq] at h
          have := ih hr
          rw [← h.2]
          simp only [List.length_cons]
          omega
      · simp only [depthFindAux, hc, ho, Bool.false_eq_true, if_false] at h
        match hr : depthFindAux oC cC d r with
        | none => rw [hr] at h; exact absurd h (by simp)
        | some (ct2, rest2) =>
          rw [hr] at h
          simp only [Option.some.injEq, Prod.mk.injEq] at h
          have := ih hr
          rw [← h.2]
          simp only [List.length_cons]
          omega

/-- Candidates, in regex alternation order, for the prefix group
`(^|\s|-->|---|--|==|==>|\.\.>)` of the rect and rounded regexes of the first
iteration, at the current position. -/
def preCands (atStart : Bool) (l : List Char) : List (List Char × List Char) :=
  (if atStart then [(([] : List Char), l)] else []) ++
  (match l with
   | c :: r => if isSpaceChar c then [([c], r)] else []
   | [] => []) ++
  (if (("-->").data).isPrefixOf l then [((("-->").data), l.drop 3)] else []) ++
  (if (("---").data).isPrefixOf l then [((("---").data), l.drop 3)] else []) ++
  (if (("--").data).isPrefixOf l then [((("--").data), l.drop 2)] else []) ++
  (if (("==").data).isPrefixOf l then [((("==").data), l.drop 2)] else []) ++
  (if (("==>").data).isPrefixOf l then [((("==>").data), l.drop 3)] else []) ++
  (if (("..>").data).isPrefixOf l then [((("..>").data), l.drop 3)] else [])

/-- Try the prefix candidates in order: the first one followed by a nonempty
word run and the opening delimiter wins, as the regex engine backtracks
through the alternation. -/
def v1TryCands (openC : Char) : List (List Char × List Char) →
    Option (List Char × List Char × List Char)
  | [] => none
  | (pre, r) :: cands =>
    if (r.takeWhile isWordChar).isEmpty then v1TryCands openC cands
    else
      match r.dropWhile isWordChar with
      | c :: r3 =>
        if c == openC then some (pre, r.takeWhile isWordChar, r3)
        else v1TryCands openC cands
      | [] => v1TryCands openC cands

lemma preCands_rest_le (atStart : Bool) (l : List Char) :
    ∀ pr ∈ preCands atStart l, (pr.2).length ≤ l.length := by
  intro pr hpr
  have hdrop : ∀ k : Nat, ((l.drop k).length ≤ l.length) := fun k => drop_len_le k l
  simp only [preCands, List.mem_append] at hpr
  rcases hpr with ((((((h | h) | h) | h) | h) | h) | h) | h
  · split_ifs at h
    · simp only [List.mem_singleton] at h
      subst h
      simp
    · simp at h
  · match l with
    | [] => simp at h
    | c :: r =>
      dsimp only at h
      split_ifs at h
      · simp only [List.mem_singleton] at h
        subst h
        simp
      · simp at h
  · split_ifs at h
    · simp only [List.mem_singleton] at h
      subst h
      exact hdrop _
    · simp at h
  · split_ifs at h
    · simp only [List.mem_singleton] at h
      subst h
      exact hdrop _
    · simp at h
  · split_ifs at h
    · simp only [List.mem_singleton] at h
      subst h
      exact hdrop _
    · simp at h
  · split_ifs at h
    · simp only [List.mem_singleton] at h
      subst h
      exact hdrop _
    · simp at h
  · split_ifs at h
    · simp only [List.mem_singleton] at h
      subst h
      exact hdrop _
    · simp at h
  · split_ifs at h
    · simp only [List.mem_singleton] at h
      subst h
      exact hdrop _
    · simp at h

lemma v1TryCands_lt {openC : Char} {L : Nat} :
    ∀ (cands : List (List Char × List Char)), (∀ pr ∈ cands, (pr.2).length ≤ L) →
    ∀ {pre w r3 : List Char}, v1TryCands openC cands = some (pre, w, r3) →
    r3.length + 2 ≤ L := by
  intro cands
  induction cands with
  | nil => intro hle pre w r3 h; simp [v1TryCands] at h
  | cons hd cands ih =>
    intro hle pre w r3 h
    match hd with
    | (pre2, r) =>
      by_cases he : (r.takeWhile isWordChar).isEmpty = true
      · simp only [v1TryCands, he, if_true] at h
        exact ih (fun pr hpr => hle pr (List.mem_cons_of_mem _ hpr)) h
      · simp only [v1TryCands, he, Bool.false_eq_true, if_false] at h
        have hr : r.length ≤ L := hle (pre2, r) (List.mem_cons_self _ _)
        have hsplit : (r.takeWhile isWordChar).length + (r.dropWhile isWordChar).length =
            r.length := by
          rw [← List.length_append, List.takeWhile_append_dropWhile]
        have hw1 : 1 ≤ (r.takeWhile isWordChar).length := by
          match ht : r.takeWhile isWordChar with
          | [] => rw [ht] at he; simp [List.isEmpty] at he
          | _ :: _ => simp
        match hdw : r.dropWhile isWordChar with
        | [] =>
          rw [hdw] at h
          exact ih (fun pr hpr => hle pr (List.mem_cons_of_mem _ hpr)) h
        | c :: r4 =>
          rw [hdw] at h
          by_cases hco : (c == openC) = true
          · simp only [hco, if_true, Option.some.injEq, Prod.mk.injEq] at h
            have : r4 = r3 := h.2.2
            subst this
            rw [hdw] at hsplit
            simp only [List.length_cons] at hsplit
            omega
          · simp only [hco, Bool.false_eq_true, if_false] at h
            exact ih (fun pr hpr => hle pr (List.mem_cons_of_mem _ hpr)) h

/-- Segments of the special v1 scanner:
`(text before, prefix capture, node id, label content)`. -/
abbrev SegList4 := List (List Char × List Char × List Char × List Char)

/-- Prepend plain text to a special-scanner result. -/
def consText4 (t : List Char) : SegList4 × List Char → SegList4 × List Char
  | ([], tl) => ([], t ++ tl)
  | ((b, pre, w, ct) :: segs, tl) => ((t ++ b, pre, w, ct) :: segs, tl)

/-- Source `processShapeWithRegex` scanning loop of the first iteration: find
`(^|\s|-->|---|--|==|==>|\.\.>)(\w+)<open>` matches; on a match, find the
matching closing delimiter by depth counting; if found, record the match and
continue after it, otherwise continue scanning right after the opening
delimiter (the source leaves `lastIndex` there).  Fuelled structural
recursion. -/
def v1SpecialScanF (openC closeC : Char) : Nat → Bool → List Char → SegList4 × List Char
  | 0, _, l => ([], l)
  | fuel + 1, atStart, l =>
    match v1TryCands openC (preCands atStart l) with
    | some (pre, w, r3) =>
      match depthFindAux openC closeC 1 r3 with
      | some (ct, rest2) =>
        match v1SpecialScanF openC closeC fuel false rest2 with
        | (segs, tl) => (([], pre, w, ct) :: segs, tl)
      | none =>
        consText4 (pre ++ w ++ [openC]) (v1SpecialScanF openC closeC fuel false r3)
    | none =>
      match l with
      | [] => ([], [])
      | c :: rest => consText4 [c] (v1SpecialScanF openC closeC fuel false rest)

/-- Special scan (rect and rounded of the first iteration) over a whole
line. -/
def v1SpecialScan (openC closeC : Char) (atStart : Bool) (l : List Char) :
    SegList4 × List Char :=
  v1SpecialScanF openC closeC (l.length + 1) atStart l

/-- Temporary marker constant `___NODE___` of the first iteration. -/
def tempMarkV1 : List Char := ("___NODE___").data

/-- Indexed placeholder `___NODE___<i>___NODE___`. -/
def v1Marker (i : Nat) : List Char := tempMarkV1 ++ (Nat.toDigits 10 i) ++ tempMarkV1

/-- Rebuild after `processShapeWithRegex`: each match becomes
`prefix ++ placeholder` (the node id is carried by the recorded conversion),
with conversions appended to the shared array in match order. -/
def v1RebuildSpecial (shape : List Char) : SegList4 → List Char → List (List Char) →
    List Char × List (List Char)
  | [], tl, defs => (tl, defs)
  | (b, pre, w, ct) :: segs, tl, defs =>
    match v1RebuildSpecial shape segs tl (defs ++ [createNodeConversion w shape ct]) with
    | (rl, defsf) => (b ++ pre ++ v1Marker defs.length ++ rl, defsf)

/-- Rebuild after `processOtherShapes`: the whole match (node id included) is
replaced by the indexed marker. -/
def v1RebuildOther (shape : List Char) : SegList → List Char → List (List Char) →
    List Char × List (List Char)
  | [], tl, defs => (tl, defs)
  | (b, w, ct) :: segs, tl, defs =>
    match v1RebuildOther shape segs tl (defs ++ [createNodeConversion w shape ct]) with
    | (rl, defsf) => (b ++ v1Marker defs.length ++ rl, defsf)

/-- Source `processOtherShapes` for one lazy pattern. -/
def processOtherShapesV1 (opn cl shape : List Char) (line : List Char)
    (defs : List (List Char)) : List Char × List (List Char) :=
  match shapeScanL opn cl line with
  | (segs, tl) => v1RebuildOther shape segs tl defs

/-- Source `processRectShape`. -/
def processRectShapeV1 (line : List Char) (defs : List (List Char)) :
    List Char × List (List Char) :=
  match v1SpecialScan '[' ']' true line with
  | (segs, tl) => v1RebuildSpecial (("rect").data) segs tl defs

/-- Source `processRoundedShape` (first iteration). -/
def processRoundedShapeV1 (line : List Char) (defs : List (List Char)) :
    List Char × List (List Char) :=
  match v1SpecialScan '(' ')' true line with
  | (segs, tl) => v1RebuildSpecial (("rounded").data) segs tl defs

/-- Lazy patterns of `nodePatterns` (first iteration) in source order, rect
and rounded excluded (they are handled specially). -/
def lazyPatternsV1 : List (List Char × List Char × List Char) :=
  [ ((("(((").data), ((")))").data), (("dbl-circ").data)),
    ((("[[").data), (("]]").data), (("subroutine").data)),
    (([lbrace, lbrace]), ([rbrace, rbrace]), (("hex").data)),
    ((("([").data), (("])").data), (("stadium").data)),
    ((("[(").data), ((")]").data), (("cylinder").data)),
    ((("((").data), (("))").data), (("circle").data)),
    ((("[/").data), (("/]").data), (("lean-r").data)),
    ((['[', bslash]), (([bslash, ']'])), (("lean-l").data)),
    ((("[/").data), (([bslash, ']'])), (("trap-b").data)),
    ((['[', bslash]), ((("/]").data)), (("trap-t").data)),
    (((">").data), ((("]").data)), (("odd").data)),
    (([lbrace]), ([rbrace]), (("diam").data)) ]

/-- First replacement of a literal pattern, as `String.prototype.replace`
with a string pattern. -/
def replaceFirstSub (text pat repl : List Char) : List Char :=
  match text with
  | [] => []
  | c :: rest =>
    if pat.isPrefixOf (c :: rest) && !pat.isEmpty then
      repl ++ (c :: rest).drop pat.length
    else c :: replaceFirstSub rest pat repl

/-- Source `replaceMarkersWithConversions` (first iteration): the `i`-th
placeholder is replaced (first occurrence only) by the `i`-th conversion. -/
def replaceMarkersV1 (text : List Char) (convs : List (List Char)) : List Char :=
  (List.range convs.length).foldl
    (fun acc i => replaceFirstSub acc (v1Marker i) (convs.getD i [])) text

/-- Source `processNodeDefinitions` (first iteration): lazy patterns first (in
`nodePatterns` order, skipping rect and rounded), then rectangles, then
rounded shapes, then marker resolution. -/
def processNodeDefinitionsV1 (line : List Char) : List Char :=
  match lazyPatternsV1.foldl
      (fun (st : List Char × List (List Char)) p =>
        processOtherShapesV1 p.1 p.2.1 p.2.2 st.1 st.2) (line, []) with
  | (l1, defs1) =>
    match processRectShapeV1 l1 defs1 with
    | (l2, defs2) =>
      match processRoundedShapeV1 l2 defs2 with
      | (l3, defs3) => replaceMarkersV1 l3 defs3

/-- Source `toNewSyntax` (first iteration): per line, skip blank lines and
`graph`/`flowchart` headers, quote edge labels unconditionally, then convert
node definitions. -/
def toNewSyntaxV1 (mermaidCode : List Char) : List Char :=
  joinLinesCh ((splitLinesCh mermaidCode).map (fun line =>
    if (jsTrim line).isEmpty || (("graph").data).isPrefixOf (jsTrim line) ||
        (("flowchart").data).isPrefixOf (jsTrim line) then line
    else processNodeDefinitionsV1 (pipeScan pipeCallbackV1 line)))

/-- Source `preprocessChart` (first iteration): escape pre-pass, conversion,
then label validation with whole-document fallback to the pre-pass text when
any extracted label (not containing a nested shape token) has unbalanced
brackets. -/
def preprocessChartV1 (chart : List Char) : List Char :=
  let processedChart := if hasEscapeSeq chart then handleEscapedCharacters chart else chart
  let convertedChart := toNewSyntaxV1 processedChart
  if containsSub convertedChart shapeTokSub then
    if (extractLabels convertedChart).any (fun label =>
        !(containsSub label shapeTokSub) && !(checkLabelBracketBalance label)) then
      processedChart
    else convertedChart
  else convertedChart

/-! ### Claim theorems -/

/-- C1: `preprocessChart` always returns a string for every input; the
conversion body runs inside a try/catch at the orchestration boundary, and
when the body fails the original input chart is returned verbatim.  The
second conjunct identifies the current `preprocessChart` with the guarded
orchestration whose body is the (total) escape-pre-pass plus conversion. -/
theorem C1_preprocessChart_total_and_fallback :
    (∀ (body : List Char → Except (List Char) (List Char)) (e chart : List Char),
      body chart = Except.error e → preprocessChartTry body chart = chart)
    ∧ (∀ chart : List Char,
      preprocessChartV2 chart =
        preprocessChartTry (fun c => Except.ok (preprocessChartV2 c)) chart) := by
  constructor
  · intro body e chart h
    simp [preprocessChartTry, h]
  · intro chart
    rfl

/-- Witness for C1: a failing conversion body is caught and the original
chart text is returned. -/
theorem C1_preprocessChart_total_and_fallback_witness :
    preprocessChartTry (fun _ => Except.error (("boom").data)) (("A[x]").data) =
      ("A[x]").data :=
  C1_preprocessChart_total_and_fallback.1
    (fun _ => Except.error (("boom").data)) (("boom").data) (("A[x]").data) rfl

/-- C2 counterexample: for the chart `A[f(x]` the converted output has a
label that fails bracket-balance validation, yet the current
`preprocessChart` returns the converted text, which differs from the
escape-pre-pass output (the chart itself, as it contains no escapes). -/
theorem C2_counterexample_no_fallback_in_v2 :
    validateFlowchartLabelsV2 (toNewSyntaxV2 (("A[f(x]").data)) = false
    ∧ preprocessChartV2 (("A[f(x]").data) = toNewSyntaxV2 (("A[f(x]").data)
    ∧ toNewSyntaxV2 (("A[f(x]").data) ≠ ("A[f(x]").data := by
  refine ⟨by decide, by decide, by decide⟩

/-- C2 amended: in the first iteration's `preprocessChart` (lines 639-677), a
converted descriptor label failing bracket-balance validation causes the
whole-document fallback to the escape-pre-pass text; in the second
iteration's `preprocessChart` (lines 1645-1664) the converted text is
returned unconditionally and validation only logs a warning. -/
theorem C2_amended_validation_fallback :
    (∀ chart : List Char,
      containsSub
          (toNewSyntaxV1 (if hasEscapeSeq chart then handleEscapedCharacters chart else chart))
          shapeTokSub = true →
      (extractLabels
          (toNewSyntaxV1 (if hasEscapeSeq chart then handleEscapedCharacters chart else chart))).any
        (fun label => !(containsSub label shapeTokSub) && !(checkLabelBracketBalance label)) =
          true →
      preprocessChartV1 chart =
        (if hasEscapeSeq chart then handleEscapedCharacters chart else chart))
    ∧ (∀ chart : List Char,
      preprocessChartV2 chart =
        toNewSyntaxV2 (if hasEscapeSeq chart then handleEscapedCharacters chart else chart)) := by
  constructor
  · intro chart hTok hAny
    simp only [preprocessChartV1]
    rw [if_pos hTok, if_pos hAny]
  · intro chart
    rfl

/-- Witness for C2: at `A[f(x]` the first iteration falls back to the
pre-pass text. -/
theorem C2_amended_validation_fallback_witness :
    preprocessChartV1 (("A[f(x]").data) =
      (if hasEscapeSeq (("A[f(x]").data) then handleEscapedCharacters (("A[f(x]").data)
       else (("A[f(x]").data)) :=
  C2_amended_validation_fallback.1 (("A[f(x]").data) (by decide) (by decide)

/-- C3: single-node flow inputs convert to exactly the canonical tokens, in
both converter iterations; the subroutine double-bracket pattern wins over
the rectangle pattern sharing its prefix, and the circle double-parenthesis
pattern over the rounded one. -/
theorem C3_single_node_canonical_tokens :
    toNewSyntaxV2 (("A[Label Text]").data) =
      ("A@\x7b shape: rect, label: \"Label Text\" \x7d").data
    ∧ toNewSyntaxV2 (("A((Label Text))").data) =
      ("A@\x7b shape: circle, label: \"Label Text\" \x7d").data
    ∧ toNewSyntaxV2 (("A[[Label Text]]").data) =
      ("A@\x7b shape: subroutine, label: \"Label Text\" \x7d").data
    ∧ toNewSyntaxV1 (("A[Label Text]").data) =
      ("A@\x7b shape: rect, label: \"Label Text\" \x7d").data
    ∧ toNewSyntaxV1 (("A((Label Text))").data) =
      ("A@\x7b shape: circle, label: \"Label Text\" \x7d").data
    ∧ toNewSyntaxV1 (("A[[Label Text]]").data) =
      ("A@\x7b shape: subroutine, label: \"Label Text\" \x7d").data := by
  refine ⟨by decide, by decide, by decide, by decide, by decide, by decide⟩

/-- C4: labels with nested same-type delimiters or a parenthesized call are
preserved verbatim inside the label and never re-matched as an additional
node, in both converter iterations; no `generateMetadata` rounded-shape token
appears anywhere in the output. -/
theorem C4_nested_label_preservation :
    toNewSyntaxV2 (("A[Array[0]]").data) =
      ("A@\x7b shape: rect, label: \"Array[0]\" \x7d").data
    ∧ toNewSyntaxV1 (("A[Array[0]]").data) =
      ("A@\x7b shape: rect, label: \"Array[0]\" \x7d").data
    ∧ toNewSyntaxV2 (("MetadataGen[generateMetadata()]").data) =
      ("MetadataGen@\x7b shape: rect, label: \"generateMetadata()\" \x7d").data
    ∧ toNewSyntaxV1 (("MetadataGen[generateMetadata()]").data) =
      ("MetadataGen@\x7b shape: rect, label: \"generateMetadata()\" \x7d").data
    ∧ containsSub (toNewSyntaxV2 (("MetadataGen[generateMetadata()]").data))
        (("generateMetadata@\x7b shape: rounded").data) = false
    ∧ containsSub (toNewSyntaxV1 (("MetadataGen[generateMetadata()]").data))
        (("generateMetadata@\x7b shape: rounded").data) = false := by
  refine ⟨by decide, by decide, by decide, by decide, by decide, by decide⟩

/-- C7 counterexample: the classifier matches keywords by containment, not by
a leading-keyword match: a first line starting with the flow header
`flowchart` but containing `sequencediagram` classifies as `sequence`, and a
first line that starts with no recognized header but contains `graph` does
not classify as the Other/unknown kind. -/
theorem C7_counterexample_containment_not_leading :
    detectDiagramType (("flowchart sequencediagram").data) = ("sequence").data
    ∧ detectDiagramType (("x graph").data) = ("graph").data
    ∧ ("graph").data ≠ ("unknown").data := by
  refine ⟨by decide, by decide, by decide⟩

/-- C8: in sequence conversion, a deactivation message whose sender has no
pending activation has its close-marker stripped during the first
left-to-right pass (stated for the head line over arbitrary stack states,
which covers every step of the pass); concretely, an orphan deactivation is
stripped; of two deactivations for one activation, only the first keeps its
marker; an activation with no matching deactivation has its open-marker
stripped by the second pass; and a balanced activate/deactivate pair is left
completely untouched. -/
theorem C8_sequence_activation_repair :
    (∀ (line : List Char) (rest : List (List Char)) (i : Nat) (st : StackMap)
      (ind f a tc m : List Char),
      seqMatch '+' line = none →
      seqMatch '-' line = some (ind, f, a, tc, m) →
      (stacksGet st (jsTrim f) = none ∨ stacksGet st (jsTrim f) = some []) →
      (normPass1 (line :: rest) i st).1 =
        (ind ++ f ++ a ++ tc ++ (": ").data ++ m) :: (normPass1 rest (i + 1) st).1)
    ∧ normalizeSequenceActivations [("Server-->>-Client: msg").data] =
        [("Server-->>Client: msg").data]
    ∧ normalizeSequenceActivations
        [("Client->>+Server: a").data, ("Server-->>-Client: b").data,
         ("Server-->>-Client: c").data] =
        [("Client->>+Server: a").data, ("Server-->>-Client: b").data,
         ("Server-->>Client: c").data]
    ∧ normalizeSequenceActivations [("Client->>+Server: a").data] =
        [("Client->>Server: a").data]
    ∧ normalizeSequenceActivations
        [("Client->>+Server: a").data, ("Server-->>-Client: b").data] =
        [("Client->>+Server: a").data, ("Server-->>-Client: b").data] := by
  refine ⟨?_, by decide, by decide, by decide, by decide⟩
  intro line rest i st ind f a tc m hplus hminus hempty
  rcases hnp : normPass1 rest (i + 1) st with ⟨ls, stf⟩
  rcases hempty with hg | hg
  · simp only [normPass1, hplus, hminus, hg, hnp]
  · simp only [normPass1, hplus, hminus, hg, hnp]
    simp

/-- Witness for C8 at a concrete orphan deactivation. -/
theorem C8_sequence_activation_repair_witness :
    (normPass1 [("Server-->>-Client: msg").data] 0 []).1 =
      (([] : List Char) ++ (("Server").data) ++ (("-->>").data) ++ (("Client").data) ++
        (": ").data ++ (("msg").data)) :: (normPass1 [] 1 []).1 :=
  C8_sequence_activation_repair.1 (("Server-->>-Client: msg").data) [] 0 []
    [] (("Server").data) (("-->>").data) (("Client").data) (("msg").data)
    (by decide) (by decide) (Or.inl (by decide))

/-! ### Edge-label lemmas for C5 -/

lemma pipeSplit_no_pipe (label post : List Char) (h : ¬('|' ∈ label)) :
    pipeSplit (label ++ '|' :: post) = some (label, post) := by
  induction label with
  | nil => simp [pipeSplit]
  | cons c r ih =>
    have hc : (c == '|') = false := by
      have : ¬(c = '|') := fun hx => h (by simp [hx])
      simpa using this
    have hr : ¬('|' ∈ r) := fun hx => h (List.mem_cons_of_mem _ hx)
    simp only [List.cons_append, pipeSplit, hc, Bool.false_eq_true, if_false, List.append_eq,
      ih hr]

lemma pipeScanF_no_pipes (cb : List Char → List Char) :
    ∀ (fuel : Nat) (l : List Char), ¬('|' ∈ l) → pipeScanF cb fuel l = l := by
  intro fuel
  induction fuel with
  | zero => intro l _; rfl
  | succ fuel ih =>
    intro l hl
    match l with
    | [] => rfl
    | c :: rest =>
      have hc : (c == '|') = false := by
        have : ¬(c = '|') := fun hx => hl (by simp [hx])
        simpa using this
      have hr : ¬('|' ∈ rest) := fun hx => hl (List.mem_cons_of_mem _ hx)
      simp only [pipeScanF, hc, Bool.false_eq_true, if_false, ih rest hr]

lemma pipeScanF_single (cb : List Char → List Char) :
    ∀ (pre : List Char) (fuel : Nat) (label post : List Char),
      (pre ++ '|' :: label ++ '|' :: post).length < fuel →
      ¬('|' ∈ pre) → ¬('|' ∈ label) → label ≠ [] → ¬('|' ∈ post) →
      pipeScanF cb fuel (pre ++ '|' :: label ++ '|' :: post) = pre ++ cb label ++ post := by
  intro pre
  induction pre with
  | nil =>
    intro fuel label post hfuel hpre hlab hne hpost
    match fuel with
    | 0 => exact absurd hfuel (by simp)
    | fuel + 1 =>
      have hsplit := pipeSplit_no_pipe label post hlab
      have hemp : label.isEmpty = false := by
        match label with
        | [] => exact absurd rfl hne
        | _ :: _ => rfl
      simp only [List.nil_append, pipeScanF, List.append_eq, hsplit, hemp, Bool.false_eq_true,
        if_false, beq_self_eq_true, if_true]
      rw [pipeScanF_no_pipes cb fuel post hpost]
  | cons c pre ih =>
    intro fuel label post hfuel hpre hlab hne hpost
    match fuel with
    | 0 => exact absurd hfuel (by simp)
    | fuel + 1 =>
      have hc : (c == '|') = false := by
        have : ¬(c = '|') := fun hx => hpre (by simp [hx])
        simpa using this
      have hp : ¬('|' ∈ pre) := fun hx => hpre (List.mem_cons_of_mem _ hx)
      have hf : (pre ++ '|' :: label ++ '|' :: post).length < fuel := by
        simp only [List.cons_append, List.length_cons] at hfuel
        simp only [List.length_append, List.length_cons] at *
        omega
      simp only [List.cons_append, pipeScanF, hc, Bool.false_eq_true, if_false, List.append_eq]
      rw [ih fuel label post hf hp hlab hne hpost]

/-- C5: a bare edge label between pipe characters is trimmed and wrapped in
double quotes with internal quotes escaped, while a label already wrapped in
double quotes is returned as the unchanged match — stated universally over
every line of the form `pre|label|post`, plus the pipeline on the two
concrete examples. -/
theorem C5_edge_label_quoting :
    (∀ pre label post : List Char,
      ¬('|' ∈ pre) → ¬('|' ∈ label) → label ≠ [] → ¬('|' ∈ post) →
      pipeScan pipeCallbackV2 (pre ++ '|' :: label ++ '|' :: post) =
        pre ++ (if ((match jsTrim label with | [] => false | c :: _ => c == dquote) &&
                    (match (jsTrim label).getLast? with
                     | none => false
                     | some c => c == dquote)) = true
                then '|' :: label ++ '|' :: post
                else '|' :: dquote :: escapeQuotesCh (jsTrim label) ++ dquote :: '|' :: post))
    ∧ toNewSyntaxV2 (("A --> |Label| B").data) = ("A --> |\"Label\"| B").data
    ∧ toNewSyntaxV2 (("A --> |\"Already Quoted\"| B").data) =
        ("A --> |\"Already Quoted\"| B").data := by
  refine ⟨?_, by decide, by decide⟩
  intro pre label post hpre hlab hne hpost
  have hmain := pipeScanF_single pipeCallbackV2 pre
    ((pre ++ '|' :: label ++ '|' :: post).length + 1) label post (by omega) hpre hlab hne hpost
  rw [show pipeScan pipeCallbackV2 (pre ++ '|' :: label ++ '|' :: post) =
      pipeScanF pipeCallbackV2 ((pre ++ '|' :: label ++ '|' :: post).length + 1)
        (pre ++ '|' :: label ++ '|' :: post) from rfl]
  rw [hmain]
  unfold pipeCallbackV2
  by_cases hq : ((match jsTrim label with | [] => false | c :: _ => c == dquote) &&
      (match (jsTrim label).getLast? with | none => false | some c => c == dquote)) = true
  · rw [if_pos hq, if_pos hq]
    simp
  · rw [if_neg hq, if_neg hq]
    simp

/-- Witness for C5: the bare label `Label` is trimmed and quoted, and the
already quoted label `"Already Quoted"` is left unchanged. -/
theorem C5_edge_label_quoting_witness :
    pipeScan pipeCallbackV2 (("A --> |Label| B").data) = ("A --> |\"Label\"| B").data
    ∧ pipeScan pipeCallbackV2 (("A --> |\"Already Quoted\"| B").data) =
        ("A --> |\"Already Quoted\"| B").data := by
  constructor
  · have h := C5_edge_label_quoting.1 (("A --> ").data) (("Label").data) ((" B").data)
      (by decide) (by decide) (by decide) (by decide)
    exact (by decide : (("A --> |Label| B").data) =
      (("A --> ").data ++ '|' :: (("Label").data) ++ '|' :: ((" B").data))) ▸ h.trans (by decide)
  · have h := C5_edge_label_quoting.1 (("A --> ").data) (("\"Already Quoted\"").data)
      ((" B").data) (by decide) (by decide) (by decide) (by decide)
    exact (by decide : (("A --> |\"Already Quoted\"| B").data) =
      (("A --> ").data ++ '|' :: (("\"Already Quoted\"").data) ++ '|' :: ((" B").data))) ▸
      h.trans (by decide)

/-! ### Classifier lemmas for C7 -/

lemma char_ofNat_toNat {m : Nat} (h : m < 55296) : (Char.ofNat m).toNat = m := by
  unfold Char.ofNat
  rw [dif_pos]
  · rfl
  · exact Or.inl h

lemma toLower_ne_of_upper {u : Char} (hu : 65 ≤ u.toNat ∧ u.toNat ≤ 90) (c : Char) :
    Char.toLower c ≠ u := by
  unfold Char.toLower
  dsimp only
  split_ifs with h
  · intro hEq
    have h2 : (Char.ofNat (c.toNat + 32)).toNat = u.toNat := by rw [hEq]
    have h3 : (Char.ofNat (c.toNat + 32)).toNat = c.toNat + 32 :=
      char_ofNat_toNat (by omega)
    omega
  · intro hEq
    rw [hEq] at h
    exact h ⟨hu.1, hu.2⟩

lemma containsSub_subset {s p : List Char} (h : containsSub s p = true) : ∀ c ∈ p, c ∈ s := by
  induction s with
  | nil =>
    have hp : p = [] := by
      match p with
      | [] => rfl
      | a :: as => simp [containsSub, List.isPrefixOf] at h
    subst hp
    intro c hc
    simp at hc
  | cons a s ih =>
    simp only [containsSub, Bool.or_eq_true] at h
    rcases h with h | h
    · intro c hc
      exact (List.isPrefixOf_iff_prefix.mp h).subset hc
    · intro c hc
      exact List.mem_cons_of_mem _ (ih h c hc)

lemma containsSub_lower_upper_false (l kw : List Char) (u : Char)
    (hu : 65 ≤ u.toNat ∧ u.toNat ≤ 90) (hmem : u ∈ kw) :
    containsSub (toLowerCh l) kw = false := by
  cases hc : containsSub (toLowerCh l) kw
  · rfl
  · have hm := containsSub_subset hc u hmem
    rcases List.mem_map.mp hm with ⟨a, _, ha⟩
    exact absurd ha (toLower_ne_of_upper hu a)

/-- C7 amended: the classifier is a total deterministic function of the
lowercased first line of the trimmed source, classifying by keyword
containment with the sequence keyword checked first; a first line containing
none of the recognized keywords classifies as the unknown kind; and the
dispatcher routes every non-sequence classification, including unknown,
through the flowchart converter exactly as it routes a flow classification. -/
theorem C7_amended_containment_classifier :
    (∀ code : List Char,
      containsSub (toLowerCh ((splitLinesCh (jsTrim code)).headI))
        (("sequencediagram").data) = true →
      detectDiagramType code = ("sequence").data)
    ∧ (∀ code : List Char,
      containsSub (toLowerCh ((splitLinesCh (jsTrim code)).headI))
        (("sequencediagram").data) = false →
      containsSub (toLowerCh ((splitLinesCh (jsTrim code)).headI))
        (("flowchart").data) = true →
      detectDiagramType code = ("flowchart").data)
    ∧ (∀ code : List Char,
      containsSub (toLowerCh ((splitLinesCh (jsTrim code)).headI))
        (("sequencediagram").data) = false →
      containsSub (toLowerCh ((splitLinesCh (jsTrim code)).headI))
        (("flowchart").data) = false →
      containsSub (toLowerCh ((splitLinesCh (jsTrim code)).headI))
        (("graph").data) = true →
      detectDiagramType code = ("graph").data)
    ∧ (∀ code : List Char,
      containsSub (toLowerCh ((splitLinesCh (jsTrim code)).headI))
        (("sequencediagram").data) = false →
      containsSub (toLowerCh ((splitLinesCh (jsTrim code)).headI))
        (("flowchart").data) = false →
      containsSub (toLowerCh ((splitLinesCh (jsTrim code)).headI))
        (("graph").data) = false →
      containsSub (toLowerCh ((splitLinesCh (jsTrim code)).headI))
        (("gantt").data) = false →
      containsSub (toLowerCh ((splitLinesCh (jsTrim code)).headI))
        (("pie").data) = false →
      detectDiagramType code = ("unknown").data)
    ∧ (∀ code : List Char,
      detectDiagramType code ≠ ("sequence").data →
      toNewSyntaxV2 code = joinLinesCh (processFlowchartDiagramV2 (splitLinesCh code))) := by
  refine ⟨?_, ?_, ?_, ?_, ?_⟩
  · intro code h
    simp only [detectDiagramType, h, if_true]
  · intro code h1 h2
    simp only [detectDiagramType, h1, h2, Bool.false_eq_true, if_false, if_true]
  · intro code h1 h2 h3
    simp only [detectDiagramType, h1, h2, h3, Bool.false_eq_true, if_false, if_true]
  · intro code h1 h2 h3 h4 h5
    have hclass := containsSub_lower_upper_false ((splitLinesCh (jsTrim code)).headI)
      (("classDiagram").data) 'D' (by decide) (by decide)
    have hstate := containsSub_lower_upper_false ((splitLinesCh (jsTrim code)).headI)
      (("stateDiagram").data) 'D' (by decide) (by decide)
    have her := containsSub_lower_upper_false ((splitLinesCh (jsTrim code)).headI)
      (("erDiagram").data) 'D' (by decide) (by decide)
    have hgit := containsSub_lower_upper_false ((splitLinesCh (jsTrim code)).headI)
      (("gitGraph").data) 'G' (by decide) (by decide)
    simp only [detectDiagramType, h1, h2, h3, h4, h5, hclass, hstate, her, hgit,
      Bool.false_eq_true, if_false]
  · intro code h
    simp only [toNewSyntaxV2, if_neg h]

/-- Witness for C7 exercising every conjunct at concrete inputs. -/
theorem C7_amended_containment_classifier_witness :
    detectDiagramType (("sequenceDiagram").data) = ("sequence").data
    ∧ detectDiagramType (("flowchart TD").data) = ("flowchart").data
    ∧ detectDiagramType (("graph TD").data) = ("graph").data
    ∧ detectDiagramType (("hello world").data) = ("unknown").data
    ∧ toNewSyntaxV2 (("A[x]").data) =
        joinLinesCh (processFlowchartDiagramV2 (splitLinesCh (("A[x]").data))) := by
  refine ⟨?_, ?_, ?_, ?_, ?_⟩
  · exact C7_amended_containment_classifier.1 (("sequenceDiagram").data) (by decide)
  · exact C7_amended_containment_classifier.2.1 (("flowchart TD").data) (by decide) (by decide)
  · exact C7_amended_containment_classifier.2.2.1 (("graph TD").data) (by decide) (by decide)
      (by decide)
  · exact C7_amended_containment_classifier.2.2.2.1 (("hello world").data) (by decide)
      (by decide) (by decide) (by decide) (by decide)
  · exact C7_amended_containment_classifier.2.2.2.2 (("A[x]").data) (by decide)

/-! ### Idempotence of the flowchart converter (C6) -/

lemma pipeSplit_decomp : ∀ (l ct rest : List Char), pipeSplit l = some (ct, rest) →
    l = ct ++ '|' :: rest ∧ ¬('|' ∈ ct) := by
  intro l
  induction l with
  | nil => intro ct rest h; simp [pipeSplit] at h
  | cons c r ih =>
    intro ct rest h
    by_cases hc : (c == '|') = true
    · simp only [pipeSplit, hc, if_true, Option.some.injEq, Prod.mk.injEq] at h
      rw [← h.1, ← h.2]
      have : c = '|' := beq_iff_eq.mp hc
      subst this
      simp
    · simp only [pipeSplit, hc, Bool.false_eq_true, if_false] at h
      match hr : pipeSplit r with
      | none => rw [hr] at h; exact absurd h (by simp)
      | some (ct2, rest2) =>
        rw [hr] at h
        simp only [Option.some.injEq, Prod.mk.injEq] at h
        rcases ih ct2 rest2 hr with ⟨hdec, hmem⟩
        constructor
        · rw [← h.1, ← h.2, List.cons_append, hdec]
        · rw [← h.1]
          intro hx
          rcases List.mem_cons.mp hx with hx | hx
          · have : c = '|' := hx.symm
            subst this
            simp at hc
          · exact hmem hx

lemma escapeQuotesCh_mem {c : Char} : ∀ t : List Char, c ∈ escapeQuotesCh t →
    c ∈ t ∨ c = bslash := by
  intro t
  induction t with
  | nil => intro h; simp [escapeQuotesCh] at h
  | cons a r ih =>
    intro h
    by_cases ha : (a == dquote) = true
    · simp only [escapeQuotesCh, ha, if_true] at h
      rcases List.mem_cons.mp h with h | h
      · exact Or.inr h
      · rcases List.mem_cons.mp h with h | h
        · subst h
          exact Or.inl (by simp [beq_iff_eq.mp ha])
        · rcases ih h with h | h
          · exact Or.inl (List.mem_cons_of_mem _ h)
          · exact Or.inr h
    · simp only [escapeQuotesCh, ha, Bool.false_eq_true, if_false] at h
      rcases List.mem_cons.mp h with h | h
      · exact Or.inl (by simp [h])
      · rcases ih h with h | h
        · exact Or.inl (List.mem_cons_of_mem _ h)
        · exact Or.inr h

lemma jsTrim_mem {c : Char} {t : List Char} (h : c ∈ jsTrim t) : c ∈ t := by
  unfold jsTrim trimRight trimLeft at h
  have h1 := (List.dropWhile_sublist (l := (List.dropWhile isSpaceChar t).reverse)
    (p := isSpaceChar)).subset (List.mem_reverse.mp h)
  have h2 := List.mem_reverse.mp (by simpa using h1)
  exact (List.dropWhile_sublist (l := t) (p := isSpaceChar)).subset h2

lemma dropWhile_cons_false {p : Char → Bool} {c : Char} (h : p c = false) (l : List Char) :
    (c :: l).dropWhile p = c :: l := by
  simp [List.dropWhile_cons, h]

lemma jsTrim_quoted (E : List Char) :
    jsTrim (dquote :: (E ++ [dquote])) = dquote :: (E ++ [dquote]) := by
  have hdq : isSpaceChar dquote = false := by decide
  unfold jsTrim trimLeft trimRight
  rw [dropWhile_cons_false hdq]
  have h1 : (dquote :: (E ++ [dquote])).reverse = dquote :: (E.reverse ++ [dquote]) := by
    simp
  rw [h1, dropWhile_cons_false hdq, ← h1, List.reverse_reverse]

/-- The already-quoted test of the second iteration's pipe callback. -/
def quotedCheck (t : List Char) : Bool :=
  (match t with | [] => false | c :: _ => c == dquote) &&
    (match t.getLast? with | none => false | some c => c == dquote)

lemma pipeCallbackV2_eq (label : List Char) :
    pipeCallbackV2 label = if quotedCheck (jsTrim label)
      then '|' :: label ++ ['|']
      else '|' :: dquote :: escapeQuotesCh (jsTrim label) ++ [dquote, '|'] := rfl

lemma pipeCallbackV2_stable_quoted (E : List Char) :
    pipeCallbackV2 (dquote :: (E ++ [dquote])) =
      '|' :: (dquote :: (E ++ [dquote])) ++ ['|'] := by
  have hlast : (dquote :: (E ++ [dquote])).getLast? = some dquote := by
    rw [← List.cons_append, List.getLast?_concat]
  rw [pipeCallbackV2_eq, jsTrim_quoted]
  rw [if_pos]
  unfold quotedCheck
  rw [hlast]
  simp

lemma pipeCallbackV2_shape (label : List Char) (hnp : ¬('|' ∈ label)) :
    ∃ P, pipeCallbackV2 label = '|' :: P ++ ['|'] ∧ P ≠ [] ∧ ¬('|' ∈ P) ∧
      pipeCallbackV2 P = '|' :: P ++ ['|'] := by
  by_cases hq : quotedCheck (jsTrim label) = true
  · refine ⟨label, ?_, ?_, hnp, ?_⟩
    · rw [pipeCallbackV2_eq, if_pos hq]
    · intro h
      subst h
      simp [jsTrim, trimLeft, trimRight, quotedCheck] at hq
    · rw [pipeCallbackV2_eq, if_pos hq]
  · refine ⟨dquote :: (escapeQuotesCh (jsTrim label) ++ [dquote]), ?_, by simp, ?_, ?_⟩
    · rw [pipeCallbackV2_eq, if_neg hq]
      simp
    · intro hm
      rcases List.mem_cons.mp hm with hm | hm
      · exact absurd hm.symm (by decide)
      · rcases List.mem_append.mp hm with hm | hm
        · rcases escapeQuotesCh_mem _ hm with hm | hm
          · exact hnp (jsTrim_mem hm)
          · exact absurd hm (by decide)
        · rw [List.mem_singleton] at hm
          exact absurd hm (by decide)
    · exact pipeCallbackV2_stable_quoted _

lemma pipeScanF_cbV2_head (fuel : Nat) (r : List Char) :
    ∃ r2, pipeScanF pipeCallbackV2 fuel ('|' :: r) = '|' :: r2 := by
  match fuel with
  | 0 => exact ⟨r, rfl⟩
  | fuel + 1 =>
    rcases hsp : pipeSplit r with _ | ⟨ct, r2⟩
    · exact ⟨r, by simp [pipeScanF, hsp]⟩
    · by_cases hct : ct.isEmpty = true
      · exact ⟨pipeScanF pipeCallbackV2 fuel r, by simp [pipeScanF, hsp, hct]⟩
      · refine ⟨(if quotedCheck (jsTrim ct) then ct ++ ['|']
            else dquote :: escapeQuotesCh (jsTrim ct) ++ [dquote, '|']) ++
            pipeScanF pipeCallbackV2 fuel r2, ?_⟩
        simp only [pipeScanF, hsp, hct, Bool.false_eq_true, if_false]
        rw [pipeCallbackV2_eq]
        by_cases hq : quotedCheck (jsTrim ct) = true
        · rw [if_pos hq, if_pos hq]
          simp
        · rw [if_neg hq, if_neg hq]
          simp

lemma pipeScanF_V2_idem : ∀ (n : Nat) (l : List Char), l.length ≤ n →
    ∀ fuel1 fuel2, l.length < fuel1 →
    (pipeScanF pipeCallbackV2 fuel1 l).length < fuel2 →
    pipeScanF pipeCallbackV2 fuel2 (pipeScanF pipeCallbackV2 fuel1 l) =
      pipeScanF pipeCallbackV2 fuel1 l := by
  intro n
  induction n with
  | zero =>
    intro l hl fuel1 fuel2 h1 h2
    have hln : l = [] := List.eq_nil_of_length_eq_zero (Nat.le_zero.mp hl)
    subst hln
    obtain ⟨f1, rfl⟩ : ∃ f, fuel1 = f + 1 :=
      ⟨fuel1 - 1, (Nat.succ_pred_eq_of_pos h1).symm⟩
    have e1 : pipeScanF pipeCallbackV2 (f1 + 1) ([] : List Char) = [] := rfl
    rw [e1] at h2 ⊢
    obtain ⟨f2, rfl⟩ : ∃ f, fuel2 = f + 1 :=
      ⟨fuel2 - 1, (Nat.succ_pred_eq_of_pos h2).symm⟩
    rfl
  | succ m ih =>
    intro l hl fuel1 fuel2 h1 h2
    obtain ⟨f1, rfl⟩ : ∃ f, fuel1 = f + 1 :=
      ⟨fuel1 - 1, (Nat.succ_pred_eq_of_pos (Nat.lt_of_le_of_lt (Nat.zero_le _) h1)).symm⟩
    cases l with
    | nil =>
      have e1 : pipeScanF pipeCallbackV2 (f1 + 1) ([] : List Char) = [] := rfl
      rw [e1] at h2 ⊢
      obtain ⟨f2, rfl⟩ : ∃ f, fuel2 = f + 1 :=
        ⟨fuel2 - 1, (Nat.succ_pred_eq_of_pos h2).symm⟩
      rfl
    | cons c rest =>
      by_cases hc : c = '|'
      · subst hc
        rcases hsp : pipeSplit rest with _ | ⟨ct, rest2⟩
        · have e1 : pipeScanF pipeCallbackV2 (f1 + 1) ('|' :: rest) = '|' :: rest := by
            simp [pipeScanF, hsp]
          rw [e1] at h2 ⊢
          obtain ⟨f2, rfl⟩ : ∃ f, fuel2 = f + 1 :=
            ⟨fuel2 - 1, (Nat.succ_pred_eq_of_pos (Nat.lt_of_le_of_lt (Nat.zero_le _) h2)).symm⟩
          simp [pipeScanF, hsp]
        · by_cases hct : ct = []
          · subst hct
            have hrest : rest = '|' :: rest2 := by
              have := (pipeSplit_decomp rest [] rest2 hsp).1
              simpa using this
            have e1 : pipeScanF pipeCallbackV2 (f1 + 1) ('|' :: rest) =
                '|' :: pipeScanF pipeCallbackV2 f1 rest := by
              simp [pipeScanF, hsp]
            rw [e1] at h2 ⊢
            obtain ⟨f2, rfl⟩ : ∃ f, fuel2 = f + 1 :=
              ⟨fuel2 - 1, (Nat.succ_pred_eq_of_pos (Nat.lt_of_le_of_lt (Nat.zero_le _) h2)).symm⟩
            obtain ⟨O2, hO⟩ := pipeScanF_cbV2_head f1 rest2
            rw [hrest, hO]
            have e2 : pipeScanF pipeCallbackV2 (f2 + 1) ('|' :: '|' :: O2) =
                '|' :: pipeScanF pipeCallbackV2 f2 ('|' :: O2) := by
              simp [pipeScanF, pipeSplit]
            rw [e2]
            have hidem := ih rest (Nat.le_of_succ_le_succ hl) f1 f2
              (Nat.lt_of_succ_lt_succ h1)
              (by rw [hrest, hO] at h2 ⊢; simpa using Nat.lt_of_succ_lt_succ h2)
            rw [hrest, hO] at hidem
            rw [hidem]
          · have hdec := pipeSplit_decomp rest ct rest2 hsp
            have hnp : ¬('|' ∈ ct) := hdec.2
            obtain ⟨P, hcbeq, hPne, hPnp, hPstable⟩ := pipeCallbackV2_shape ct hnp
            have hcte : ct.isEmpty = false := by
              cases ct with
              | nil => exact absurd rfl hct
              | cons a b => rfl
            have e1 : pipeScanF pipeCallbackV2 (f1 + 1) ('|' :: rest) =
                pipeCallbackV2 ct ++ pipeScanF pipeCallbackV2 f1 rest2 := by
              simp [pipeScanF, hsp, hcte]
            rw [e1] at h2 ⊢
            rw [hcbeq] at h2 ⊢
            have hshape : ('|' :: P ++ ['|']) ++ pipeScanF pipeCallbackV2 f1 rest2 =
                '|' :: (P ++ '|' :: pipeScanF pipeCallbackV2 f1 rest2) := by
              simp
            rw [hshape] at h2 ⊢
            obtain ⟨f2, rfl⟩ : ∃ f, fuel2 = f + 1 :=
              ⟨fuel2 - 1, (Nat.succ_pred_eq_of_pos (Nat.lt_of_le_of_lt (Nat.zero_le _) h2)).symm⟩
            have hPe : P.isEmpty = false := by
              cases P with
              | nil => exact absurd rfl hPne
              | cons a b => rfl
            have e2 : pipeScanF pipeCallbackV2 (f2 + 1)
                ('|' :: (P ++ '|' :: pipeScanF pipeCallbackV2 f1 rest2)) =
                pipeCallbackV2 P ++
                  pipeScanF pipeCallbackV2 f2 (pipeScanF pipeCallbackV2 f1 rest2) := by
              simp [pipeScanF, pipeSplit_no_pipe P (pipeScanF pipeCallbackV2 f1 rest2) hPnp, hPe]
            rw [e2, hPstable]
            have hr2m : rest2.length ≤ m := by
              have h3 := pipeSplit_length rest ct rest2 hsp
              have h4 : rest.length ≤ m := Nat.le_of_succ_le_succ hl
              omega
            have hr2f : rest2.length < f1 := by
              have h3 := pipeSplit_length rest ct rest2 hsp
              have h4 : rest.length < f1 := Nat.lt_of_succ_lt_succ h1
              omega
            have hOf : (pipeScanF pipeCallbackV2 f1 rest2).length < f2 := by
              have h5 : ('|' :: (P ++ '|' :: pipeScanF pipeCallbackV2 f1 rest2)).length =
                  P.length + (pipeScanF pipeCallbackV2 f1 rest2).length + 2 := by
                simp [List.length_append]
                omega
              omega
            have hidem := ih rest2 hr2m f1 f2 hr2f hOf
            rw [hidem]
            simp
      · have hcb : (c == '|') = false := by
          simp [hc]
        have e1 : pipeScanF pipeCallbackV2 (f1 + 1) (c :: rest) =
            c :: pipeScanF pipeCallbackV2 f1 rest := by
          simp [pipeScanF, hcb]
        rw [e1] at h2 ⊢
        obtain ⟨f2, rfl⟩ : ∃ f, fuel2 = f + 1 :=
          ⟨fuel2 - 1, (Nat.succ_pred_eq_of_pos (Nat.lt_of_le_of_lt (Nat.zero_le _) h2)).symm⟩
        have e2 : pipeScanF pipeCallbackV2 (f2 + 1) (c :: pipeScanF pipeCallbackV2 f1 rest) =
            c :: pipeScanF pipeCallbackV2 f2 (pipeScanF pipeCallbackV2 f1 rest) := by
          simp [pipeScanF, hcb]
        rw [e2]
        have hidem := ih rest (Nat.le_of_succ_le_succ hl) f1 f2
          (Nat.lt_of_succ_lt_succ h1) (by simpa using Nat.lt_of_succ_lt_succ h2)
        rw [hidem]

lemma pipeScan_V2_idem (l : List Char) :
    pipeScan pipeCallbackV2 (pipeScan pipeCallbackV2 l) = pipeScan pipeCallbackV2 l := by
  unfold pipeScan
  exact pipeScanF_V2_idem l.length l (Nat.le_refl _) (l.length + 1) _
    (Nat.lt_succ_self _) (Nat.lt_succ_self _)

lemma containsSub_nil_pat (s : List Char) : containsSub s [] = true := by
  cases s with
  | nil => rfl
  | cons c t => simp [containsSub, List.isPrefixOf]

lemma isPrefixOf_append_left {p s : List Char} (h : p.isPrefixOf s = true) (t : List Char) :
    p.isPrefixOf (s ++ t) = true :=
  List.isPrefixOf_iff_prefix.mpr ((List.isPrefixOf_iff_prefix.mp h).trans (List.prefix_append s t))

lemma containsSub_of_isPrefixOf {p s : List Char} (h : p.isPrefixOf s = true) :
    containsSub s p = true := by
  cases s with
  | nil =>
    have : p = [] := by
      cases p with
      | nil => rfl
      | cons a b => simp [List.isPrefixOf] at h
    subst this
    rfl
  | cons c t => simp [containsSub, h]

lemma contains_append_head {p a : List Char} (h : p.isPrefixOf a = true) (r : List Char) :
    containsSub (a ++ r) p = true :=
  containsSub_of_isPrefixOf (isPrefixOf_append_left h r)

lemma containsSub_cons_of {p t : List Char} (c : Char) (h : containsSub t p = true) :
    containsSub (c :: t) p = true := by
  simp [containsSub, h]

lemma containsSub_append_left {p a : List Char} (h : containsSub a p = true) (b : List Char) :
    containsSub (a ++ b) p = true := by
  induction a with
  | nil =>
    have : p = [] := by
      cases p with
      | nil => rfl
      | cons x y => simp [containsSub, List.isPrefixOf] at h
    subst this
    exact containsSub_nil_pat b
  | cons c t ih =>
    simp only [containsSub, Bool.or_eq_true] at h
    rcases h with h | h
    · exact containsSub_of_isPrefixOf (isPrefixOf_append_left h b)
    · exact containsSub_cons_of c (ih h)

lemma containsSub_append_right {p b : List Char} (h : containsSub b p = true) (a : List Char) :
    containsSub (a ++ b) p = true := by
  induction a with
  | nil => exact h
  | cons c t ih => exact containsSub_cons_of c ih

lemma replaceAllSubF_of_not_contains {text pat repl : List Char}
    (h : containsSub text pat = false) :
    ∀ fuel, replaceAllSubF fuel text pat repl = text := by
  induction text with
  | nil =>
    intro fuel
    cases fuel with
    | zero => rfl
    | succ f => rfl
  | cons c rest ih =>
    intro fuel
    cases fuel with
    | zero => rfl
    | succ f =>
      simp only [containsSub, Bool.or_eq_false_iff] at h
      simp only [replaceAllSubF, h.1, Bool.false_and, Bool.false_eq_true, if_false]
      rw [ih h.2]

lemma replaceAllSubF_fires {pat repl X : List Char} (hp : pat ≠ [])
    (hrepl : containsSub repl X = true) :
    ∀ fuel text, containsSub text pat = true → text.length < fuel →
      containsSub (replaceAllSubF fuel text pat repl) X = true := by
  intro fuel
  induction fuel with
  | zero => intro text _ hf; omega
  | succ f ih =>
    intro text hct hf
    cases text with
    | nil =>
      rcases pat with _ | ⟨a, b⟩
      · exact absurd rfl hp
      · simp [containsSub, List.isPrefixOf] at hct
    | cons c rest =>
      by_cases hpre : pat.isPrefixOf (c :: rest) = true
      · have hne : pat.isEmpty = false := by
          cases pat with
          | nil => exact absurd rfl hp
          | cons a b => rfl
        simp only [replaceAllSubF, hpre, hne, Bool.not_false, Bool.and_true, if_true]
        exact containsSub_append_left hrepl _
      · have hpre2 : pat.isPrefixOf (c :: rest) = false := Bool.eq_false_iff.mpr hpre
        simp only [replaceAllSubF, hpre2, Bool.false_and, Bool.false_eq_true, if_false]
        simp only [containsSub, Bool.or_eq_true, hpre2, Bool.false_eq_true, false_or] at hct
        exact containsSub_cons_of c (ih rest hct (by simp at hf; omega))

lemma replaceAllSubF_preserves {pat repl X : List Char} (hrepl : containsSub repl X = true) :
    ∀ fuel text, replaceAllSubF fuel text pat repl = text ∨
      containsSub (replaceAllSubF fuel text pat repl) X = true := by
  intro fuel
  induction fuel with
  | zero => intro text; exact Or.inl rfl
  | succ f ih =>
    intro text
    cases text with
    | nil => exact Or.inl rfl
    | cons c rest =>
      by_cases hpre : (pat.isPrefixOf (c :: rest) && !pat.isEmpty) = true
      · simp only [replaceAllSubF, hpre, if_true]
        exact Or.inr (containsSub_append_left hrepl _)
      · have hpre2 : (pat.isPrefixOf (c :: rest) && !pat.isEmpty) = false :=
          Bool.eq_false_iff.mpr hpre
        simp only [replaceAllSubF, hpre2, Bool.false_eq_true, if_false]
        rcases ih rest with h | h
        · exact Or.inl (by rw [h])
        · exact Or.inr (containsSub_cons_of c h)

lemma markerStr_ne_nil : markerStr ≠ [] := by decide

lemma append_marker_ne_nil (k : List Char) : k ++ markerStr ≠ [] := by
  intro h
  rcases List.append_eq_nil.mp h with ⟨_, h2⟩
  exact markerStr_ne_nil h2

lemma convSimpleV2_tok (shape label : List Char) :
    containsSub (convSimpleV2 shape label) shapeTokSub = true := by
  unfold convSimpleV2
  exact contains_append_head
    (show shapeTokSub.isPrefixOf (("@\x7b shape: ").data) = true from by decide) _

lemma convRectV2_tok (label : List Char) :
    containsSub (convRectV2 label) shapeTokSub = true := by
  unfold convRectV2
  exact contains_append_head
    (show shapeTokSub.isPrefixOf (("@\x7b shape: rect, label: \"").data) = true from by decide) _

lemma mapSet_Qm {m : NodeMap} {v : List Char}
    (hQ : ∀ kv ∈ m, containsSub kv.2 shapeTokSub = true)
    (hv : containsSub v shapeTokSub = true) (k : List Char) :
    ∀ kv ∈ mapSet m k v, containsSub kv.2 shapeTokSub = true := by
  induction m with
  | nil =>
    intro kv hkv
    simp only [mapSet, List.mem_singleton] at hkv
    subst hkv
    exact hv
  | cons p rest ih =>
    intro kv hkv
    rcases p with ⟨k2, v2⟩
    by_cases he : k2 = k
    · simp only [mapSet, he, if_true] at hkv
      rcases List.mem_cons.mp hkv with h | h
      · subst h; exact hv
      · exact hQ kv (List.mem_cons_of_mem _ h)
    · simp only [mapSet, he, if_false] at hkv
      rcases List.mem_cons.mp hkv with h | h
      · subst h; exact hQ (k2, v2) (List.mem_cons_self _ _)
      · exact ih (fun kv2 hk2 => hQ kv2 (List.mem_cons_of_mem _ hk2)) kv h

lemma addDefs_Qm {convF : List Char → List Char}
    (hc : ∀ ct, containsSub (convF ct) shapeTokSub = true) :
    ∀ (segs : SegList) (m : NodeMap),
      (∀ kv ∈ m, containsSub kv.2 shapeTokSub = true) →
      ∀ kv ∈ addDefs convF m segs, containsSub kv.2 shapeTokSub = true := by
  intro segs
  induction segs with
  | nil => intro m hQ; exact hQ
  | cons sg rest ih =>
    intro m hQ
    exact ih (mapSet m sg.2.1 (convF sg.2.2)) (mapSet_Qm hQ (hc _) _)

lemma mapSet_keyMem_self (m : NodeMap) (k v : List Char) :
    ∃ w, (k, w) ∈ mapSet m k v := by
  induction m with
  | nil => exact ⟨v, List.mem_singleton.mpr rfl⟩
  | cons p rest ih =>
    rcases p with ⟨k2, v2⟩
    by_cases he : k2 = k
    · subst he
      exact ⟨v, by simp [mapSet]⟩
    · rcases ih with ⟨w, hw⟩
      exact ⟨w, by simp only [mapSet, he, if_false]; exact List.mem_cons_of_mem _ hw⟩

lemma mapSet_keyMem_mono {m : NodeMap} {k : List Char} (h : ∃ w, (k, w) ∈ m)
    (k2 v2 : List Char) : ∃ w, (k, w) ∈ mapSet m k2 v2 := by
  induction m with
  | nil => rcases h with ⟨w, hw⟩; simp at hw
  | cons p rest ih =>
    rcases p with ⟨k3, v3⟩
    rcases h with ⟨w, hw⟩
    by_cases he : k3 = k2
    · simp only [mapSet, he, if_true]
      rcases List.mem_cons.mp hw with h | h
      · have hk : k = k2 := by
          have h2 := congrArg Prod.fst h
          simp only at h2
          rw [h2, he]
        exact ⟨v2, by rw [hk]; exact List.mem_cons_self _ _⟩
      · exact ⟨w, List.mem_cons_of_mem _ h⟩
    · simp only [mapSet, he, if_false]
      rcases List.mem_cons.mp hw with h | h
      · exact ⟨w, h ▸ List.mem_cons_self _ _⟩
      · rcases ih ⟨w, h⟩ with ⟨w2, hw2⟩
        exact ⟨w2, List.mem_cons_of_mem _ hw2⟩

lemma addDefs_keyMem_mono {convF : List Char → List Char} {k : List Char} :
    ∀ (segs : SegList) (m : NodeMap), (∃ w, (k, w) ∈ m) →
      ∃ w, (k, w) ∈ addDefs convF m segs := by
  intro segs
  induction segs with
  | nil => intro m h; exact h
  | cons sg rest ih =>
    intro m h
    exact ih (mapSet m sg.2.1 (convF sg.2.2)) (mapSet_keyMem_mono h _ _)

lemma addDefs_keyMem_head (convF : List Char → List Char) (sg : List Char × List Char × List Char)
    (rest : SegList) (m : NodeMap) :
    ∃ w, (sg.2.1, w) ∈ addDefs convF m (sg :: rest) :=
  addDefs_keyMem_mono rest _ (mapSet_keyMem_self m sg.2.1 (convF sg.2.2))

lemma replaceMarkersV2_keeps :
    ∀ (m : NodeMap) (line : List Char), containsSub line shapeTokSub = true →
      (∀ kv ∈ m, containsSub kv.2 shapeTokSub = true) →
      containsSub (replaceMarkersV2 line m) shapeTokSub = true := by
  intro m
  induction m with
  | nil => intro line h _; exact h
  | cons kv rest ih =>
    intro line h hQ
    have hrepl : containsSub (kv.1 ++ kv.2) shapeTokSub = true :=
      containsSub_append_right (hQ kv (List.mem_cons_self _ _)) _
    have hstep : containsSub (replaceAllSub line (kv.1 ++ markerStr) (kv.1 ++ kv.2))
        shapeTokSub = true := by
      rcases replaceAllSubF_preserves hrepl (line.length + 1) line with h2 | h2
      · unfold replaceAllSub
        rw [h2]
        exact h
      · exact h2
    exact ih _ hstep (fun kv2 hk2 => hQ kv2 (List.mem_cons_of_mem _ hk2))

lemma replaceMarkersV2_fires :
    ∀ (m : NodeMap) (line : List Char),
      (∃ kv, kv ∈ m ∧ containsSub line (kv.1 ++ markerStr) = true) →
      (∀ kv ∈ m, containsSub kv.2 shapeTokSub = true) →
      containsSub (replaceMarkersV2 line m) shapeTokSub = true := by
  intro m
  induction m with
  | nil => intro line h _; rcases h with ⟨kv, hkv, _⟩; simp at hkv
  | cons kv0 rest ih =>
    intro line h hQ
    rcases h with ⟨kv, hkv, hct⟩
    have hrepl0 : containsSub (kv0.1 ++ kv0.2) shapeTokSub = true :=
      containsSub_append_right (hQ kv0 (List.mem_cons_self _ _)) _
    have hQr : ∀ kv2 ∈ rest, containsSub kv2.2 shapeTokSub = true :=
      fun kv2 hk2 => hQ kv2 (List.mem_cons_of_mem _ hk2)
    rcases List.mem_cons.mp hkv with he | he
    · subst he
      have hfire : containsSub (replaceAllSub line (kv.1 ++ markerStr) (kv.1 ++ kv.2))
          shapeTokSub = true :=
        replaceAllSubF_fires (append_marker_ne_nil kv.1) hrepl0 (line.length + 1) line hct
          (Nat.lt_succ_self _)
      exact replaceMarkersV2_keeps rest _ hfire hQr
    · rcases @replaceAllSubF_preserves (kv0.1 ++ markerStr) (kv0.1 ++ kv0.2) shapeTokSub
          hrepl0 (line.length + 1) line with h2 | h2
      · refine ih _ ⟨kv, he, ?_⟩ hQr
        show containsSub (replaceAllSubF (line.length + 1) line (kv0.1 ++ markerStr)
          (kv0.1 ++ kv0.2)) (kv.1 ++ markerStr) = true
        rw [h2]
        exact hct
      · exact replaceMarkersV2_keeps rest _ h2 hQr

lemma consText_nil_inv {t : List Char} {pr : SegList × List Char} {tl : List Char}
    (h : consText t pr = ([], tl)) : pr.1 = [] ∧ tl = t ++ pr.2 := by
  rcases pr with ⟨segs, tl2⟩
  cases segs with
  | nil =>
    simp only [consText, Prod.mk.injEq] at h
    exact ⟨rfl, h.2.symm⟩
  | cons sg rest =>
    rcases sg with ⟨b, w, ct⟩
    simp only [consText, Prod.mk.injEq] at h
    exact absurd h.1 (by simp)

lemma shapeScanGF_nil (opn cl : List Char) : ∀ (fuel : Nat) (l tl : List Char),
    shapeScanGF opn cl fuel l = ([], tl) → tl = l := by
  intro fuel
  induction fuel with
  | zero =>
    intro l tl h
    simp only [shapeScanGF, Prod.mk.injEq] at h
    exact h.2.symm
  | succ fuel ih =>
    intro l tl h
    cases l with
    | nil =>
      simp only [shapeScanGF, Prod.mk.injEq] at h
      exact h.2.symm
    | cons c rest =>
      by_cases hw : isWordChar c = true
      · by_cases hpre : opn.isPrefixOf ((c :: rest).dropWhile isWordChar) = true
        · rcases hg : greedyContent cl (((c :: rest).dropWhile isWordChar).drop opn.length)
              with _ | ⟨ct, r2⟩
          · simp only [shapeScanGF, hw, if_true, hpre, hg] at h
            rcases hrec : shapeScanGF opn cl fuel ((c :: rest).dropWhile isWordChar)
                with ⟨segs2, tl2⟩
            rw [hrec] at h
            rcases consText_nil_inv h with ⟨h1, h2⟩
            simp only at h1 h2
            rw [h1] at hrec
            rw [h2, ih _ _ hrec]
            exact List.takeWhile_append_dropWhile _ _
          · simp only [shapeScanGF, hw, if_true, hpre, hg] at h
            rcases hrec : shapeScanGF opn cl fuel r2 with ⟨segs2, tl2⟩
            rw [hrec] at h
            simp at h
        · have hpre2 : opn.isPrefixOf ((c :: rest).dropWhile isWordChar) = false :=
            Bool.eq_false_iff.mpr hpre
          simp only [shapeScanGF, hw, if_true, hpre2, Bool.false_eq_true, if_false] at h
          rcases hrec : shapeScanGF opn cl fuel ((c :: rest).dropWhile isWordChar)
              with ⟨segs2, tl2⟩
          rw [hrec] at h
          rcases consText_nil_inv h with ⟨h1, h2⟩
          simp only at h1 h2
          rw [h1] at hrec
          rw [h2, ih _ _ hrec]
          exact List.takeWhile_append_dropWhile _ _
      · have hw2 : isWordChar c = false := Bool.eq_false_iff.mpr hw
        simp only [shapeScanGF, hw2, Bool.false_eq_true, if_false] at h
        rcases hrec : shapeScanGF opn cl fuel rest with ⟨segs2, tl2⟩
        rw [hrec] at h
        rcases consText_nil_inv h with ⟨h1, h2⟩
        simp only at h1 h2
        rw [h1] at hrec
        rw [h2, ih _ _ hrec]
        rfl

lemma shapeScanRectF_nil : ∀ (fuel : Nat) (l tl : List Char),
    shapeScanRectF fuel l = ([], tl) → tl = l := by
  intro fuel
  induction fuel with
  | zero =>
    intro l tl h
    simp only [shapeScanRectF, Prod.mk.injEq] at h
    exact h.2.symm
  | succ fuel ih =>
    intro l tl h
    cases l with
    | nil =>
      simp only [shapeScanRectF, Prod.mk.injEq] at h
      exact h.2.symm
    | cons c rest =>
      by_cases hw : isWordChar c = true
      · by_cases hpre : (['[']).isPrefixOf ((c :: rest).dropWhile isWordChar) = true
        · rcases hg : rectContent (((c :: rest).dropWhile isWordChar).drop 1)
              with _ | ⟨ct, r2⟩
          · simp only [shapeScanRectF, hw, if_true, hpre, hg] at h
            rcases hrec : shapeScanRectF fuel ((c :: rest).dropWhile isWordChar)
                with ⟨segs2, tl2⟩
            rw [hrec] at h
            rcases consText_nil_inv h with ⟨h1, h2⟩
            simp only at h1 h2
            rw [h1] at hrec
            rw [h2, ih _ _ hrec]
            exact List.takeWhile_append_dropWhile _ _
          · simp only [shapeScanRectF, hw, if_true, hpre, hg] at h
            rcases hrec : shapeScanRectF fuel r2 with ⟨segs2, tl2⟩
            rw [hrec] at h
            simp at h
        · have hpre2 : (['[']).isPrefixOf ((c :: rest).dropWhile isWordChar) = false :=
            Bool.eq_false_iff.mpr hpre
          simp only [shapeScanRectF, hw, if_true, hpre2, Bool.false_eq_true, if_false] at h
          rcases hrec : shapeScanRectF fuel ((c :: rest).dropWhile isWordChar)
              with ⟨segs2, tl2⟩
          rw [hrec] at h
          rcases consText_nil_inv h with ⟨h1, h2⟩
          simp only at h1 h2
          rw [h1] at hrec
          rw [h2, ih _ _ hrec]
          exact List.takeWhile_append_dropWhile _ _
      · have hw2 : isWordChar c = false := Bool.eq_false_iff.mpr hw
        simp only [shapeScanRectF, hw2, Bool.false_eq_true, if_false] at h
        rcases hrec : shapeScanRectF fuel rest with ⟨segs2, tl2⟩
        rw [hrec] at h
        rcases consText_nil_inv h with ⟨h1, h2⟩
        simp only at h1 h2
        rw [h1] at hrec
        rw [h2, ih _ _ hrec]
        rfl

lemma rebuildSegs_contains_head (b w ct tl : List Char) (segs : SegList) :
    containsSub (rebuildSegs ((b, w, ct) :: segs) tl) (w ++ markerStr) = true := by
  simp only [rebuildSegs, List.append_assoc]
  apply containsSub_append_right
  rw [← List.append_assoc]
  exact contains_append_head (List.isPrefixOf_iff_prefix.mpr (List.prefix_refl _)) _

lemma runShapePassV2_inv (p : ShapePassV2) (l0 l : List Char) (m : NodeMap)
    (hI : (l = l0 ∧ m = []) ∨ ∃ kv, kv ∈ m ∧ containsSub l (kv.1 ++ markerStr) = true)
    (hQ : ∀ kv ∈ m, containsSub kv.2 shapeTokSub = true) :
    (((runShapePassV2 p (l, m)).1 = l0 ∧ (runShapePassV2 p (l, m)).2 = []) ∨
      ∃ kv, kv ∈ (runShapePassV2 p (l, m)).2 ∧
        containsSub (runShapePassV2 p (l, m)).1 (kv.1 ++ markerStr) = true) ∧
      ∀ kv ∈ (runShapePassV2 p (l, m)).2, containsSub kv.2 shapeTokSub = true := by
  cases p with
  | simple opn cl shape =>
    rcases hscan : shapeScanG opn cl l with ⟨segs, tl⟩
    have hrun : runShapePassV2 (.simple opn cl shape) (l, m) =
        (rebuildSegs segs tl, addDefs (convSimpleV2 shape) m segs) := by
      simp [runShapePassV2, hscan]
    rw [hrun]
    cases segs with
    | nil =>
      have htl : tl = l := shapeScanGF_nil opn cl _ _ _ hscan
      subst htl
      exact ⟨by simpa [rebuildSegs, addDefs] using hI, by simpa [addDefs] using hQ⟩
    | cons sg rest =>
      rcases sg with ⟨b, w, ct⟩
      constructor
      · right
        rcases addDefs_keyMem_head (convSimpleV2 shape) (b, w, ct) rest m with ⟨v, hv⟩
        exact ⟨(w, v), hv, rebuildSegs_contains_head b w ct tl rest⟩
      · exact addDefs_Qm (fun ct2 => convSimpleV2_tok shape ct2) _ m hQ
  | rectK =>
    rcases hscan : shapeScanRect l with ⟨segs, tl⟩
    have hrun : runShapePassV2 .rectK (l, m) =
        (rebuildSegs segs tl, addDefs convRectV2 m segs) := by
      simp [runShapePassV2, hscan]
    rw [hrun]
    cases segs with
    | nil =>
      have htl : tl = l := shapeScanRectF_nil _ _ _ hscan
      subst htl
      exact ⟨by simpa [rebuildSegs, addDefs] using hI, by simpa [addDefs] using hQ⟩
    | cons sg rest =>
      rcases sg with ⟨b, w, ct⟩
      constructor
      · right
        rcases addDefs_keyMem_head convRectV2 (b, w, ct) rest m with ⟨v, hv⟩
        exact ⟨(w, v), hv, rebuildSegs_contains_head b w ct tl rest⟩
      · exact addDefs_Qm (fun ct2 => convRectV2_tok ct2) _ m hQ

lemma shapePasses_fold_inv : ∀ (ps : List ShapePassV2) (l0 l : List Char) (m : NodeMap),
    ((l = l0 ∧ m = []) ∨ ∃ kv, kv ∈ m ∧ containsSub l (kv.1 ++ markerStr) = true) →
    (∀ kv ∈ m, containsSub kv.2 shapeTokSub = true) →
    (((ps.foldl (fun st p => runShapePassV2 p st) (l, m)).1 = l0 ∧
        (ps.foldl (fun st p => runShapePassV2 p st) (l, m)).2 = []) ∨
      ∃ kv, kv ∈ (ps.foldl (fun st p => runShapePassV2 p st) (l, m)).2 ∧
        containsSub (ps.foldl (fun st p => runShapePassV2 p st) (l, m)).1
          (kv.1 ++ markerStr) = true) ∧
      ∀ kv ∈ (ps.foldl (fun st p => runShapePassV2 p st) (l, m)).2,
        containsSub kv.2 shapeTokSub = true := by
  intro ps
  induction ps with
  | nil => intro l0 l m hI hQ; exact ⟨hI, hQ⟩
  | cons p rest ih =>
    intro l0 l m hI hQ
    have hstep := runShapePassV2_inv p l0 l m hI hQ
    exact ih l0 (runShapePassV2 p (l, m)).1 (runShapePassV2 p (l, m)).2 hstep.1 hstep.2

lemma processNodeDefinitionsV2_cases (line : List Char) :
    processNodeDefinitionsV2 line = line ∨
      containsSub (processNodeDefinitionsV2 line) shapeTokSub = true := by
  have h := shapePasses_fold_inv shapePassesV2 line line []
    (Or.inl ⟨rfl, rfl⟩) (by intro kv hkv; simp at hkv)
  rcases hfold : shapePassesV2.foldl (fun st p => runShapePassV2 p st) (line, ([] : NodeMap))
      with ⟨lf, mf⟩
  rw [hfold] at h
  have hdef : processNodeDefinitionsV2 line = replaceMarkersV2 lf mf := by
    unfold processNodeDefinitionsV2
    rw [hfold]
  rcases h with ⟨hI, hQ⟩
  simp only at hI hQ
  rcases hI with ⟨h1, h2⟩ | ⟨kv, hkv, hct⟩
  · left
    rw [hdef, h1, h2]
    rfl
  · right
    rw [hdef]
    exact replaceMarkersV2_fires mf lf ⟨kv, hkv, hct⟩ hQ

lemma processFlowLineV2_idem (line : List Char) :
    processFlowLineV2 (processFlowLineV2 line) = processFlowLineV2 line := by
  by_cases hb : (jsTrim line).isEmpty = true
  · have e : processFlowLineV2 line = line := by
      unfold processFlowLineV2
      rw [if_pos hb]
    rw [e, e]
  · by_cases hx : containsSub line shapeTokSub = true
    · have e : processFlowLineV2 line = line := by
        unfold processFlowLineV2
        rw [if_neg hb, if_pos hx]
      rw [e, e]
    · have e : processFlowLineV2 line =
          processNodeDefinitionsV2 (pipeScan pipeCallbackV2 line) := by
        unfold processFlowLineV2
        rw [if_neg hb, if_neg hx]
      rcases processNodeDefinitionsV2_cases (pipeScan pipeCallbackV2 line) with hc | hc
      · rw [e, hc]
        unfold processFlowLineV2
        by_cases hb2 : (jsTrim (pipeScan pipeCallbackV2 line)).isEmpty = true
        · rw [if_pos hb2]
        · rw [if_neg hb2]
          by_cases hx2 : containsSub (pipeScan pipeCallbackV2 line) shapeTokSub = true
          · rw [if_pos hx2]
          · rw [if_neg hx2, pipeScan_V2_idem, hc]
      · rw [e]
        unfold processFlowLineV2
        by_cases hb2 : (jsTrim (processNodeDefinitionsV2 (pipeScan pipeCallbackV2 line))).isEmpty
            = true
        · rw [if_pos hb2]
        · rw [if_neg hb2, if_pos hc]

lemma processFlowchartDiagramV2_idem (lines : List (List Char)) :
    processFlowchartDiagramV2 (processFlowchartDiagramV2 lines) =
      processFlowchartDiagramV2 lines := by
  unfold processFlowchartDiagramV2
  rw [List.map_map]
  exact List.map_congr_left fun a _ => processFlowLineV2_idem a

lemma splitLinesCh_ne_nil : ∀ x : List Char, splitLinesCh x ≠ [] := by
  intro x
  cases x with
  | nil => simp [splitLinesCh]
  | cons c r =>
    by_cases hc : c = nlChar
    · simp [splitLinesCh, hc]
    · simp only [splitLinesCh, hc, if_false]
      rcases hr : splitLinesCh r with _ | ⟨h2, t2⟩
      · simp
      · simp

lemma splitLinesCh_noNL : ∀ (x : List Char) (l : List Char),
    l ∈ splitLinesCh x → ¬(nlChar ∈ l) := by
  intro x
  induction x with
  | nil =>
    intro l hl
    simp only [splitLinesCh, List.mem_singleton] at hl
    subst hl
    simp
  | cons c r ih =>
    intro l hl
    by_cases hc : c = nlChar
    · simp only [splitLinesCh, hc, if_true] at hl
      rcases List.mem_cons.mp hl with hl | hl
      · subst hl; simp
      · exact ih l hl
    · simp only [splitLinesCh, hc, if_false] at hl
      rcases hr : splitLinesCh r with _ | ⟨h2, t2⟩
      · rw [hr] at hl
        simp only [List.mem_singleton] at hl
        subst hl
        intro hm
        rcases List.mem_singleton.mp hm with hm
        exact hc hm.symm
      · rw [hr] at hl
        rcases List.mem_cons.mp hl with hl | hl
        · subst hl
          intro hm
          rcases List.mem_cons.mp hm with hm | hm
          · exact hc hm.symm
          · exact ih h2 (by rw [hr]; exact List.mem_cons_self _ _) hm
        · exact ih l (by rw [hr]; exact List.mem_cons_of_mem _ hl)

lemma splitLinesCh_of_noNL : ∀ l : List Char, ¬(nlChar ∈ l) → splitLinesCh l = [l] := by
  intro l
  induction l with
  | nil => intro _; rfl
  | cons c r ih =>
    intro h
    have hc : ¬(c = nlChar) := fun he => h (he ▸ List.mem_cons_self _ _)
    simp only [splitLinesCh, hc, if_false]
    rw [ih (fun hm => h (List.mem_cons_of_mem _ hm))]

lemma splitLinesCh_append_nl (rest : List Char) :
    ∀ l : List Char, ¬(nlChar ∈ l) → splitLinesCh (l ++ nlChar :: rest) = l :: splitLinesCh rest := by
  intro l
  induction l with
  | nil => intro _; simp [splitLinesCh]
  | cons c r ih =>
    intro h
    have hc : ¬(c = nlChar) := fun he => h (he ▸ List.mem_cons_self _ _)
    have hr : splitLinesCh (r ++ nlChar :: rest) = r :: splitLinesCh rest :=
      ih (fun hm => h (List.mem_cons_of_mem _ hm))
    show splitLinesCh (c :: (r ++ nlChar :: rest)) = (c :: r) :: splitLinesCh rest
    simp only [splitLinesCh, hc, if_false, hr]

lemma splitLinesCh_joinLinesCh : ∀ ls : List (List Char), ls ≠ [] →
    (∀ l ∈ ls, ¬(nlChar ∈ l)) → splitLinesCh (joinLinesCh ls) = ls := by
  intro ls
  induction ls with
  | nil => intro h _; exact absurd rfl h
  | cons l rest ih =>
    intro _ hnl
    cases rest with
    | nil =>
      show splitLinesCh (joinLinesCh [l]) = [l]
      have : joinLinesCh [l] = l := rfl
      rw [this]
      exact splitLinesCh_of_noNL l (hnl l (List.mem_cons_self _ _))
    | cons l2 rest2 =>
      have hj : joinLinesCh (l :: l2 :: rest2) = l ++ nlChar :: joinLinesCh (l2 :: rest2) := rfl
      rw [hj, splitLinesCh_append_nl _ l (hnl l (List.mem_cons_self _ _))]
      rw [ih (by simp) (fun x hx => hnl x (List.mem_cons_of_mem _ hx))]

lemma consText_rebuild (t : List Char) (pr : SegList × List Char) :
    rebuildSegs (consText t pr).1 (consText t pr).2 = t ++ rebuildSegs pr.1 pr.2 := by
  rcases pr with ⟨segs, tl⟩
  cases segs with
  | nil => rfl
  | cons sg rest =>
    rcases sg with ⟨b, w, ct⟩
    simp [consText, rebuildSegs]

lemma consText_segs_mem {t : List Char} {pr : SegList × List Char}
    {sg : List Char × List Char × List Char} (h : sg ∈ (consText t pr).1) :
    ∃ sg2, sg2 ∈ pr.1 ∧ sg.2.1 = sg2.2.1 ∧ sg.2.2 = sg2.2.2 := by
  rcases pr with ⟨segs, tl⟩
  cases segs with
  | nil => simp [consText] at h
  | cons sg0 rest =>
    rcases sg0 with ⟨b, w, ct⟩
    simp only [consText] at h
    rcases List.mem_cons.mp h with h | h
    · subst h
      exact ⟨(b, w, ct), List.mem_cons_self _ _, rfl, rfl⟩
    · exact ⟨sg, List.mem_cons_of_mem _ h, rfl, rfl⟩

lemma greedyContent_mem {cl l ct r2 : List Char} (h : greedyContent cl l = some (ct, r2)) :
    (∀ c, c ∈ ct → c ∈ l) ∧ ∀ c, c ∈ r2 → c ∈ l := by
  unfold greedyContent at h
  dsimp only at h
  split_ifs at h with h1 h2
  simp only [Option.some.injEq, Prod.mk.injEq] at h
  constructor
  · intro c hc
    rw [← h.1] at hc
    exact (List.takeWhile_sublist _).subset hc
  · intro c hc
    rw [← h.2] at hc
    exact (List.dropWhile_sublist _).subset ((List.drop_sublist _ _).subset hc)

lemma rectSeg_fst_mem (l : List Char) : ∀ c, c ∈ (rectSeg l).1 → c ∈ l := by
  intro c hc
  simp only [rectSeg] at hc
  exact (List.takeWhile_sublist _).subset hc

lemma rectSeg_snd_mem (l : List Char) : ∀ c, c ∈ (rectSeg l).2 → c ∈ l := by
  intro c hc
  simp only [rectSeg] at hc
  exact (List.dropWhile_sublist _).subset hc

lemma rectRepsF_mem : ∀ (fuel : Nat) (acc l ct r : List Char),
    rectRepsF fuel acc l = some (ct, r) →
    (∀ c, c ∈ ct → c ∈ acc ∨ c ∈ l) ∧ ∀ c, c ∈ r → c ∈ l := by
  intro fuel
  induction fuel with
  | zero => intro acc l ct r h; simp [rectRepsF] at h
  | succ fuel ih =>
    intro acc l ct r h
    match l with
    | [] => simp [rectRepsF] at h
    | c :: rest =>
      by_cases hc1 : c = ']'
      · subst hc1
        simp only [rectRepsF, Option.some.injEq, Prod.mk.injEq] at h
        constructor
        · intro c2 hc2
          rw [← h.1] at hc2
          exact Or.inl hc2
        · intro c2 hc2
          rw [← h.2] at hc2
          exact List.mem_cons_of_mem _ hc2
      · by_cases hc2 : c = '['
        · subst hc2
          rw [rectRepsF] at h
          split at h
          · rename_i r4 hr3
            have hmemr4 : ∀ c2, c2 ∈ (']' :: r4 : List Char) → c2 ∈ rest := by
              intro c2 hc2
              rw [← hr3] at hc2
              exact rectSeg_snd_mem rest c2 hc2
            have hih := ih _ _ _ _ h
            constructor
            · intro c2 hc2
              rcases hih.1 c2 hc2 with hc3 | hc3
              · rcases List.mem_append.mp hc3 with hc4 | hc4
                · rcases List.mem_append.mp hc4 with hc5 | hc5
                  · exact Or.inl hc5
                  · rcases List.mem_cons.mp hc5 with hc6 | hc6
                    · subst hc6
                      exact Or.inr (List.mem_cons_self _ _)
                    · exact Or.inr (List.mem_cons_of_mem _ (rectSeg_fst_mem rest c2 hc6))
                · rcases List.mem_cons.mp hc4 with hc6 | hc6
                  · subst hc6
                    exact Or.inr (List.mem_cons_of_mem _ (hmemr4 _ (List.mem_cons_self _ _)))
                  · exact Or.inr (List.mem_cons_of_mem _
                      (hmemr4 _ (List.mem_cons_of_mem _ (rectSeg_fst_mem r4 c2 hc6))))
              · exact Or.inr (List.mem_cons_of_mem _
                  (hmemr4 _ (List.mem_cons_of_mem _ (rectSeg_snd_mem r4 c2 hc3))))
            · intro c2 hc2
              exact List.mem_cons_of_mem _
                (hmemr4 _ (List.mem_cons_of_mem _ (rectSeg_snd_mem r4 c2 (hih.2 c2 hc2))))
          · exact absurd h (by simp)
        · rw [rectRepsF] at h
          · exact absurd h (by simp)
          · intro rs hEq
            injection hEq with h1 _
            exact hc1 h1
          · intro rs hEq
            injection hEq with h1 _
            exact hc2 h1

lemma rectContent_mem {l ct r : List Char} (h : rectContent l = some (ct, r)) :
    (∀ c, c ∈ ct → c ∈ l) ∧ ∀ c, c ∈ r → c ∈ l := by
  unfold rectContent at h
  have hih := rectRepsF_mem _ _ _ _ _ h
  constructor
  · intro c hc
    rcases hih.1 c hc with hc2 | hc2
    · exact rectSeg_fst_mem l c hc2
    · exact rectSeg_snd_mem l c hc2
  · intro c hc
    exact rectSeg_snd_mem l c (hih.2 c hc)

lemma shapeScanGF_mem (opn cl : List Char) : ∀ (fuel : Nat) (l : List Char) (segs : SegList)
    (tl : List Char), shapeScanGF opn cl fuel l = (segs, tl) →
    (∀ c, c ∈ rebuildSegs segs tl → c ∈ l ∨ c ∈ markerStr) ∧
    ∀ sg ∈ segs, (∀ c, c ∈ sg.2.1 → c ∈ l) ∧ ∀ c, c ∈ sg.2.2 → c ∈ l := by
  intro fuel
  induction fuel with
  | zero =>
    intro l segs tl h
    simp only [shapeScanGF, Prod.mk.injEq] at h
    rcases h with ⟨h1, h2⟩
    subst h1
    subst h2
    constructor
    · intro c hc
      simp only [rebuildSegs] at hc
      exact Or.inl hc
    · intro sg hsg
      simp at hsg
  | succ fuel ih =>
    intro l segs tl h
    cases l with
    | nil =>
      simp only [shapeScanGF, Prod.mk.injEq] at h
      rcases h with ⟨h1, h2⟩
      subst h1
      subst h2
      constructor
      · intro c hc
        simp only [rebuildSegs] at hc
        exact Or.inl hc
      · intro sg hsg
        simp at hsg
    | cons c0 rest =>
      have hfin : ∀ (t dw : List Char), (∀ c, c ∈ t → c ∈ c0 :: rest) →
          (∀ c, c ∈ dw → c ∈ c0 :: rest) →
          consText t (shapeScanGF opn cl fuel dw) = (segs, tl) →
          (∀ c, c ∈ rebuildSegs segs tl → c ∈ c0 :: rest ∨ c ∈ markerStr) ∧
          ∀ sg ∈ segs, (∀ c, c ∈ sg.2.1 → c ∈ c0 :: rest) ∧
            ∀ c, c ∈ sg.2.2 → c ∈ c0 :: rest := by
        intro t dw ht hdw hcons
        rcases hrec : shapeScanGF opn cl fuel dw with ⟨segs2, tl2⟩
        rw [hrec] at hcons
        have hih := ih dw segs2 tl2 hrec
        have h1 : segs = (consText t (segs2, tl2)).1 := by rw [hcons]
        have h2 : tl = (consText t (segs2, tl2)).2 := by rw [hcons]
        constructor
        · intro c hc
          rw [h1, h2, consText_rebuild] at hc
          rcases List.mem_append.mp hc with hc | hc
          · exact Or.inl (ht c hc)
          · rcases hih.1 c hc with hc | hc
            · exact Or.inl (hdw c hc)
            · exact Or.inr hc
        · intro sg hsg
          rw [h1] at hsg
          rcases consText_segs_mem hsg with ⟨sg2, hsg2, hk, hcnt⟩
          rcases hih.2 sg2 hsg2 with ⟨hk2, hc2⟩
          exact ⟨fun c hc => hdw c (hk2 c (hk ▸ hc)), fun c hc => hdw c (hc2 c (hcnt ▸ hc))⟩
      have htw : ∀ c, c ∈ (c0 :: rest).takeWhile isWordChar → c ∈ c0 :: rest :=
        fun c hc => (List.takeWhile_sublist _).subset hc
      have hdw : ∀ c, c ∈ (c0 :: rest).dropWhile isWordChar → c ∈ c0 :: rest :=
        fun c hc => (List.dropWhile_sublist _).subset hc
      have hdrop : ∀ c, c ∈ ((c0 :: rest).dropWhile isWordChar).drop opn.length →
          c ∈ c0 :: rest :=
        fun c hc => hdw c ((List.drop_sublist _ _).subset hc)
      by_cases hw : isWordChar c0 = true
      · by_cases hpre : opn.isPrefixOf ((c0 :: rest).dropWhile isWordChar) = true
        · rcases hg : greedyContent cl (((c0 :: rest).dropWhile isWordChar).drop opn.length)
              with _ | ⟨ct, r2⟩
          · simp only [shapeScanGF, hw, if_true, hpre, hg] at h
            exact hfin _ _ htw hdw h
          · simp only [shapeScanGF, hw, if_true, hpre, hg] at h
            rcases hrec : shapeScanGF opn cl fuel r2 with ⟨segs2, tl2⟩
            rw [hrec] at h
            simp only [Prod.mk.injEq] at h
            rcases h with ⟨hsegs, htl⟩
            subst htl
            have hgm := greedyContent_mem hg
            have hr2 : ∀ c, c ∈ r2 → c ∈ c0 :: rest := fun c hc => hdrop c (hgm.2 c hc)
            have hct : ∀ c, c ∈ ct → c ∈ c0 :: rest := fun c hc => hdrop c (hgm.1 c hc)
            have hih := ih r2 segs2 tl2 hrec
            rw [← hsegs]
            constructor
            · intro c hc
              simp only [rebuildSegs, List.nil_append] at hc
              rcases List.mem_append.mp hc with hc | hc
              · rcases List.mem_append.mp hc with hc | hc
                · exact Or.inl (htw c hc)
                · exact Or.inr hc
              · rcases hih.1 c hc with hc | hc
                · exact Or.inl (hr2 c hc)
                · exact Or.inr hc
            · intro sg hsg
              rcases List.mem_cons.mp hsg with hsg | hsg
              · subst hsg
                exact ⟨fun c hc => htw c hc, fun c hc => hct c hc⟩
              · rcases hih.2 sg hsg with ⟨hk, hcnt⟩
                exact ⟨fun c hc => hr2 c (hk c hc), fun c hc => hr2 c (hcnt c hc)⟩
        · have hpre2 : opn.isPrefixOf ((c0 :: rest).dropWhile isWordChar) = false :=
            Bool.eq_false_iff.mpr hpre
          simp only [shapeScanGF, hw, if_true, hpre2, Bool.false_eq_true, if_false] at h
          exact hfin _ _ htw hdw h
      · have hw2 : isWordChar c0 = false := Bool.eq_false_iff.mpr hw
        simp only [shapeScanGF, hw2, Bool.false_eq_true, if_false] at h
        refine hfin [c0] rest ?_ (fun c hc => List.mem_cons_of_mem _ hc) h
        intro c hc
        have hc2 : c = c0 := List.mem_singleton.mp hc
        rw [hc2]
        exact List.mem_cons_self _ _

lemma shapeScanRectF_mem : ∀ (fuel : Nat) (l : List Char) (segs : SegList)
    (tl : List Char), shapeScanRectF fuel l = (segs, tl) →
    (∀ c, c ∈ rebuildSegs segs tl → c ∈ l ∨ c ∈ markerStr) ∧
    ∀ sg ∈ segs, (∀ c, c ∈ sg.2.1 → c ∈ l) ∧ ∀ c, c ∈ sg.2.2 → c ∈ l := by
  intro fuel
  induction fuel with
  | zero =>
    intro l segs tl h
    simp only [shapeScanRectF, Prod.mk.injEq] at h
    rcases h with ⟨h1, h2⟩
    subst h1
    subst h2
    constructor
    · intro c hc
      simp only [rebuildSegs] at hc
      exact Or.inl hc
    · intro sg hsg
      simp at hsg
  | succ fuel ih =>
    intro l segs tl h
    cases l with
    | nil =>
      simp only [shapeScanRectF, Prod.mk.injEq] at h
      rcases h with ⟨h1, h2⟩
      subst h1
      subst h2
      constructor
      · intro c hc
        simp only [rebuildSegs] at hc
        exact Or.inl hc
      · intro sg hsg
        simp at hsg
    | cons c0 rest =>
      have hfin : ∀ (t dw : List Char), (∀ c, c ∈ t → c ∈ c0 :: rest) →
          (∀ c, c ∈ dw → c ∈ c0 :: rest) →
          consText t (shapeScanRectF fuel dw) = (segs, tl) →
          (∀ c, c ∈ rebuildSegs segs tl → c ∈ c0 :: rest ∨ c ∈ markerStr) ∧
          ∀ sg ∈ segs, (∀ c, c ∈ sg.2.1 → c ∈ c0 :: rest) ∧
            ∀ c, c ∈ sg.2.2 → c ∈ c0 :: rest := by
        intro t dw ht hdw hcons
        rcases hrec : shapeScanRectF fuel dw with ⟨segs2, tl2⟩
        rw [hrec] at hcons
        have hih := ih dw segs2 tl2 hrec
        have h1 : segs = (consText t (segs2, tl2)).1 := by rw [hcons]
        have h2 : tl = (consText t (segs2, tl2)).2 := by rw [hcons]
        constructor
        · intro c hc
          rw [h1, h2, consText_rebuild] at hc
          rcases List.mem_append.mp hc with hc | hc
          · exact Or.inl (ht c hc)
          · rcases hih.1 c hc with hc | hc
            · exact Or.inl (hdw c hc)
            · exact Or.inr hc
        · intro sg hsg
          rw [h1] at hsg
          rcases consText_segs_mem hsg with ⟨sg2, hsg2, hk, hcnt⟩
          rcases hih.2 sg2 hsg2 with ⟨hk2, hc2⟩
          exact ⟨fun c hc => hdw c (hk2 c (hk ▸ hc)), fun c hc => hdw c (hc2 c (hcnt ▸ hc))⟩
      have htw : ∀ c, c ∈ (c0 :: rest).takeWhile isWordChar → c ∈ c0 :: rest :=
        fun c hc => (List.takeWhile_sublist _).subset hc
      have hdw : ∀ c, c ∈ (c0 :: rest).dropWhile isWordChar → c ∈ c0 :: rest :=
        fun c hc => (List.dropWhile_sublist _).subset hc
      have hdrop : ∀ c, c ∈ ((c0 :: rest).dropWhile isWordChar).drop 1 →
          c ∈ c0 :: rest :=
        fun c hc => hdw c ((List.drop_sublist _ _).subset hc)
      by_cases hw : isWordChar c0 = true
      · by_cases hpre : (['[']).isPrefixOf ((c0 :: rest).dropWhile isWordChar) = true
        · rcases hg : rectContent (((c0 :: rest).dropWhile isWordChar).drop 1)
              with _ | ⟨ct, r2⟩
          · simp only [shapeScanRectF, hw, if_true, hpre, hg] at h
            exact hfin _ _ htw hdw h
          · simp only [shapeScanRectF, hw, if_true, hpre, hg] at h
            rcases hrec : shapeScanRectF fuel r2 with ⟨segs2, tl2⟩
            rw [hrec] at h
            simp only [Prod.mk.injEq] at h
            rcases h with ⟨hsegs, htl⟩
            subst htl
            have hgm := rectContent_mem hg
            have hr2 : ∀ c, c ∈ r2 → c ∈ c0 :: rest := fun c hc => hdrop c (hgm.2 c hc)
            have hct : ∀ c, c ∈ ct → c ∈ c0 :: rest := fun c hc => hdrop c (hgm.1 c hc)
            have hih := ih r2 segs2 tl2 hrec
            rw [← hsegs]
            constructor
            · intro c hc
              simp only [rebuildSegs, List.nil_append] at hc
              rcases List.mem_append.mp hc with hc | hc
              · rcases List.mem_append.mp hc with hc | hc
                · exact Or.inl (htw c hc)
                · exact Or.inr hc
              · rcases hih.1 c hc with hc | hc
                · exact Or.inl (hr2 c hc)
                · exact Or.inr hc
            · intro sg hsg
              rcases List.mem_cons.mp hsg with hsg | hsg
              · subst hsg
                exact ⟨fun c hc => htw c hc, fun c hc => hct c hc⟩
              · rcases hih.2 sg hsg with ⟨hk, hcnt⟩
                exact ⟨fun c hc => hr2 c (hk c hc), fun c hc => hr2 c (hcnt c hc)⟩
        · have hpre2 : (['[']).isPrefixOf ((c0 :: rest).dropWhile isWordChar) = false :=
            Bool.eq_false_iff.mpr hpre
          simp only [shapeScanRectF, hw, if_true, hpre2, Bool.false_eq_true, if_false] at h
          exact hfin _ _ htw hdw h
      · have hw2 : isWordChar c0 = false := Bool.eq_false_iff.mpr hw
        simp only [shapeScanRectF, hw2, Bool.false_eq_true, if_false] at h
        refine hfin [c0] rest ?_ (fun c hc => List.mem_cons_of_mem _ hc) h
        intro c hc
        have hc2 : c = c0 := List.mem_singleton.mp hc
        rw [hc2]
        exact List.mem_cons_self _ _

lemma pipeCallbackV2_mem {c : Char} (ct : List Char) (h : c ∈ pipeCallbackV2 ct) :
    c ∈ ct ∨ c = '|' ∨ c = dquote ∨ c = bslash := by
  rw [pipeCallbackV2_eq] at h
  by_cases hq : quotedCheck (jsTrim ct) = true
  · rw [if_pos hq] at h
    rcases List.mem_cons.mp h with h | h
    · exact Or.inr (Or.inl h)
    · rcases List.mem_append.mp h with h | h
      · exact Or.inl h
      · exact Or.inr (Or.inl (List.mem_singleton.mp h))
  · rw [if_neg hq] at h
    rcases List.mem_cons.mp h with h | h
    · exact Or.inr (Or.inl h)
    rcases List.mem_cons.mp h with h | h
    · exact Or.inr (Or.inr (Or.inl h))
    rcases List.mem_append.mp h with h | h
    · rcases escapeQuotesCh_mem _ h with h | h
      · exact Or.inl (jsTrim_mem h)
      · exact Or.inr (Or.inr (Or.inr h))
    · rcases List.mem_cons.mp h with h | h
      · exact Or.inr (Or.inr (Or.inl h))
      · exact Or.inr (Or.inl (List.mem_singleton.mp h))

lemma pipeScanF_V2_mem : ∀ (fuel : Nat) (l : List Char) (c : Char),
    c ∈ pipeScanF pipeCallbackV2 fuel l → c ∈ l ∨ c = '|' ∨ c = dquote ∨ c = bslash := by
  intro fuel
  induction fuel with
  | zero => intro l c h; exact Or.inl h
  | succ fuel ih =>
    intro l c h
    cases l with
    | nil => simp [pipeScanF] at h
    | cons c0 rest =>
      by_cases hc0 : c0 = '|'
      · subst hc0
        rcases hsp : pipeSplit rest with _ | ⟨ct, r2⟩
        · simp only [pipeScanF, hsp] at h
          rw [if_pos (by simp)] at h
          exact Or.inl h
        · have hdec := pipeSplit_decomp rest ct r2 hsp
          by_cases hct : ct.isEmpty = true
          · simp only [pipeScanF, hsp, hct, if_true] at h
            rw [if_pos (by simp)] at h
            rcases List.mem_cons.mp h with h | h
            · exact Or.inr (Or.inl h)
            · rcases ih rest c h with h | h
              · exact Or.inl (List.mem_cons_of_mem _ h)
              · exact Or.inr h
          · have hct2 : ct.isEmpty = false := Bool.eq_false_iff.mpr hct
            simp only [pipeScanF, hsp, hct2, Bool.false_eq_true, if_false] at h
            rw [if_pos (by simp)] at h
            rcases List.mem_append.mp h with h | h
            · rcases pipeCallbackV2_mem ct h with h | h
              · refine Or.inl (List.mem_cons_of_mem _ ?_)
                rw [hdec.1]
                exact List.mem_append.mpr (Or.inl h)
              · exact Or.inr h
            · rcases ih r2 c h with h | h
              · refine Or.inl (List.mem_cons_of_mem _ ?_)
                rw [hdec.1]
                exact List.mem_append.mpr (Or.inr (List.mem_cons_of_mem _ h))
              · exact Or.inr h
      · have hc02 : (c0 == '|') = false := by simp [hc0]
        simp only [pipeScanF, hc02, Bool.false_eq_true, if_false] at h
        rcases List.mem_cons.mp h with h | h
        · exact Or.inl (h ▸ List.mem_cons_self _ _)
        · rcases ih rest c h with h | h
          · exact Or.inl (List.mem_cons_of_mem _ h)
          · exact Or.inr h

lemma replaceAllSubF_mem : ∀ (fuel : Nat) (text pat repl : List Char) (c : Char),
    c ∈ replaceAllSubF fuel text pat repl → c ∈ text ∨ c ∈ repl := by
  intro fuel
  induction fuel with
  | zero => intro text pat repl c h; exact Or.inl h
  | succ fuel ih =>
    intro text pat repl c h
    cases text with
    | nil => simp [replaceAllSubF] at h
    | cons c0 rest =>
      by_cases hcond : (pat.isPrefixOf (c0 :: rest) && !pat.isEmpty) = true
      · simp only [replaceAllSubF, hcond, if_true] at h
        rcases List.mem_append.mp h with h | h
        · exact Or.inr h
        · rcases ih _ _ _ _ h with h | h
          · exact Or.inl ((List.drop_sublist _ _).subset h)
          · exact Or.inr h
      · have hcond2 : (pat.isPrefixOf (c0 :: rest) && !pat.isEmpty) = false :=
          Bool.eq_false_iff.mpr hcond
        simp only [replaceAllSubF, hcond2, Bool.false_eq_true, if_false] at h
        rcases List.mem_cons.mp h with h | h
        · exact Or.inl (h ▸ List.mem_cons_self _ _)
        · rcases ih _ _ _ _ h with h | h
          · exact Or.inl (List.mem_cons_of_mem _ h)
          · exact Or.inr h

lemma replaceMarkersV2_noNL : ∀ (m : NodeMap) (line : List Char), ¬(nlChar ∈ line) →
    (∀ kv ∈ m, ¬(nlChar ∈ kv.1) ∧ ¬(nlChar ∈ kv.2)) →
    ¬(nlChar ∈ replaceMarkersV2 line m) := by
  intro m
  induction m with
  | nil => intro line hl _; exact hl
  | cons kv0 rest ih =>
    intro line hl hm
    have hstep : ¬(nlChar ∈ replaceAllSub line (kv0.1 ++ markerStr) (kv0.1 ++ kv0.2)) := by
      intro hx
      rcases replaceAllSubF_mem _ _ _ _ _ hx with hx | hx
      · exact hl hx
      · rcases List.mem_append.mp hx with hx | hx
        · exact (hm kv0 (List.mem_cons_self _ _)).1 hx
        · exact (hm kv0 (List.mem_cons_self _ _)).2 hx
    exact ih _ hstep (fun kv hkv => hm kv (List.mem_cons_of_mem _ hkv))

lemma convSimpleV2_noNL {shape label : List Char} (hs : ¬(nlChar ∈ shape))
    (hl : ¬(nlChar ∈ label)) : ¬(nlChar ∈ convSimpleV2 shape label) := by
  intro hm
  unfold convSimpleV2 at hm
  simp only [List.mem_append] at hm
  rcases hm with (((hm | hm) | hm) | hm) | hm
  · exact absurd hm (by decide)
  · exact hs hm
  · exact absurd hm (by decide)
  · exact hl (jsTrim_mem hm)
  · exact absurd hm (by decide)

lemma convRectV2_noNL {label : List Char} (hl : ¬(nlChar ∈ label)) :
    ¬(nlChar ∈ convRectV2 label) := by
  intro hm
  unfold convRectV2 at hm
  simp only [List.mem_append] at hm
  rcases hm with (hm | hm) | hm
  · exact absurd hm (by decide)
  · split_ifs at hm with hq
    · rcases escapeQuotesCh_mem _ hm with hm | hm
      · exact hl (jsTrim_mem hm)
      · exact absurd hm (by decide)
    · exact hl (jsTrim_mem hm)
  · exact absurd hm (by decide)

lemma mapSet_noNL : ∀ (m : NodeMap) (k v : List Char),
    (∀ kv ∈ m, ¬(nlChar ∈ kv.1) ∧ ¬(nlChar ∈ kv.2)) →
    ¬(nlChar ∈ k) → ¬(nlChar ∈ v) →
    ∀ kv ∈ mapSet m k v, ¬(nlChar ∈ kv.1) ∧ ¬(nlChar ∈ kv.2) := by
  intro m
  induction m with
  | nil =>
    intro k v _ hk hv kv hkv
    simp only [mapSet, List.mem_singleton] at hkv
    subst hkv
    exact ⟨hk, hv⟩
  | cons p rest ih =>
    intro k v hm hk hv kv hkv
    rcases p with ⟨k2, v2⟩
    by_cases he : k2 = k
    · simp only [mapSet, he, if_true] at hkv
      rcases List.mem_cons.mp hkv with h | h
      · subst h
        exact ⟨hk, hv⟩
      · exact hm kv (List.mem_cons_of_mem _ h)
    · simp only [mapSet, he, if_false] at hkv
      rcases List.mem_cons.mp hkv with h | h
      · subst h
        exact hm (k2, v2) (List.mem_cons_self _ _)
      · exact ih k v (fun kv2 hk2 => hm kv2 (List.mem_cons_of_mem _ hk2)) hk hv kv h

lemma addDefs_noNL {convF : List Char → List Char} : ∀ (segs : SegList) (m : NodeMap),
    (∀ kv ∈ m, ¬(nlChar ∈ kv.1) ∧ ¬(nlChar ∈ kv.2)) →
    (∀ sg ∈ segs, ¬(nlChar ∈ sg.2.1) ∧ ¬(nlChar ∈ convF sg.2.2)) →
    ∀ kv ∈ addDefs convF m segs, ¬(nlChar ∈ kv.1) ∧ ¬(nlChar ∈ kv.2) := by
  intro segs
  induction segs with
  | nil => intro m hm _; exact hm
  | cons sg rest ih =>
    intro m hm hsegs
    exact ih _ (mapSet_noNL m _ _ hm (hsegs sg (List.mem_cons_self _ _)).1
      (hsegs sg (List.mem_cons_self _ _)).2)
      (fun sg2 hs2 => hsegs sg2 (List.mem_cons_of_mem _ hs2))

lemma markerStr_noNL : ¬(nlChar ∈ markerStr) := by decide

lemma runShapePassV2_noNL (p : ShapePassV2) (l : List Char) (m : NodeMap)
    (hp : ∀ opn cl s, p = ShapePassV2.simple opn cl s → ¬(nlChar ∈ s))
    (hl : ¬(nlChar ∈ l)) (hm : ∀ kv ∈ m, ¬(nlChar ∈ kv.1) ∧ ¬(nlChar ∈ kv.2)) :
    ¬(nlChar ∈ (runShapePassV2 p (l, m)).1) ∧
      ∀ kv ∈ (runShapePassV2 p (l, m)).2, ¬(nlChar ∈ kv.1) ∧ ¬(nlChar ∈ kv.2) := by
  cases p with
  | simple opn cl shape =>
    rcases hscan : shapeScanG opn cl l with ⟨segs, tl⟩
    have hrun : runShapePassV2 (.simple opn cl shape) (l, m) =
        (rebuildSegs segs tl, addDefs (convSimpleV2 shape) m segs) := by
      simp [runShapePassV2, hscan]
    rw [hrun]
    have hmem := shapeScanGF_mem opn cl (l.length + 1) l segs tl hscan
    constructor
    · intro hx
      rcases hmem.1 nlChar hx with hx | hx
      · exact hl hx
      · exact markerStr_noNL hx
    · refine addDefs_noNL segs m hm ?_
      intro sg hsg
      rcases hmem.2 sg hsg with ⟨hk, hc⟩
      exact ⟨fun hx => hl (hk nlChar hx),
        convSimpleV2_noNL (hp opn cl shape rfl) (fun hx => hl (hc nlChar hx))⟩
  | rectK =>
    rcases hscan : shapeScanRect l with ⟨segs, tl⟩
    have hrun : runShapePassV2 .rectK (l, m) =
        (rebuildSegs segs tl, addDefs convRectV2 m segs) := by
      simp [runShapePassV2, hscan]
    rw [hrun]
    have hmem := shapeScanRectF_mem (l.length + 1) l segs tl hscan
    constructor
    · intro hx
      rcases hmem.1 nlChar hx with hx | hx
      · exact hl hx
      · exact markerStr_noNL hx
    · refine addDefs_noNL segs m hm ?_
      intro sg hsg
      rcases hmem.2 sg hsg with ⟨hk, hc⟩
      exact ⟨fun hx => hl (hk nlChar hx), convRectV2_noNL (fun hx => hl (hc nlChar hx))⟩

lemma shapePasses_fold_noNL : ∀ (ps : List ShapePassV2),
    (∀ p ∈ ps, ∀ opn cl s, p = ShapePassV2.simple opn cl s → ¬(nlChar ∈ s)) →
    ∀ (l : List Char) (m : NodeMap), ¬(nlChar ∈ l) →
    (∀ kv ∈ m, ¬(nlChar ∈ kv.1) ∧ ¬(nlChar ∈ kv.2)) →
    ¬(nlChar ∈ (ps.foldl (fun st p => runShapePassV2 p st) (l, m)).1) ∧
      ∀ kv ∈ (ps.foldl (fun st p => runShapePassV2 p st) (l, m)).2,
        ¬(nlChar ∈ kv.1) ∧ ¬(nlChar ∈ kv.2) := by
  intro ps
  induction ps with
  | nil => intro _ l m hl hm; exact ⟨hl, hm⟩
  | cons p rest ih =>
    intro hps l m hl hm
    have hstep := runShapePassV2_noNL p l m (hps p (List.mem_cons_self _ _)) hl hm
    exact ih (fun p2 hp2 => hps p2 (List.mem_cons_of_mem _ hp2))
      (runShapePassV2 p (l, m)).1 (runShapePassV2 p (l, m)).2 hstep.1 hstep.2

lemma shapePassesV2_shapes_noNL :
    ∀ p ∈ shapePassesV2, ∀ opn cl s, p = ShapePassV2.simple opn cl s → ¬(nlChar ∈ s) := by
  intro p hp
  simp only [shapePassesV2, List.mem_cons, List.not_mem_nil, or_false] at hp
  rcases hp with rfl | rfl | rfl | rfl | rfl | rfl | rfl | rfl | rfl | rfl | rfl | rfl | rfl | rfl
  all_goals intro opn cl s heq
  all_goals first
  | (cases heq; decide)
  | cases heq

lemma processNodeDefinitionsV2_noNL (line : List Char) (hl : ¬(nlChar ∈ line)) :
    ¬(nlChar ∈ processNodeDefinitionsV2 line) := by
  have h := shapePasses_fold_noNL shapePassesV2 shapePassesV2_shapes_noNL line []
    hl (by intro kv hkv; simp at hkv)
  rcases hfold : shapePassesV2.foldl (fun st p => runShapePassV2 p st) (line, ([] : NodeMap))
      with ⟨lf, mf⟩
  rw [hfold] at h
  have hdef : processNodeDefinitionsV2 line = replaceMarkersV2 lf mf := by
    unfold processNodeDefinitionsV2
    rw [hfold]
  rw [hdef]
  exact replaceMarkersV2_noNL mf lf h.1 h.2

lemma processFlowLineV2_noNL (line : List Char) (hl : ¬(nlChar ∈ line)) :
    ¬(nlChar ∈ processFlowLineV2 line) := by
  unfold processFlowLineV2
  by_cases hb : (jsTrim line).isEmpty = true
  · rw [if_pos hb]
    exact hl
  · rw [if_neg hb]
    by_cases hx : containsSub line shapeTokSub = true
    · rw [if_pos hx]
      exact hl
    · rw [if_neg hx]
      refine processNodeDefinitionsV2_noNL _ ?_
      intro hm
      rcases pipeScanF_V2_mem _ _ _ hm with h | h | h | h
      · exact hl h
      · exact absurd h (by decide)
      · exact absurd h (by decide)
      · exact absurd h (by decide)

/-- C6: the flowchart conversion is idempotent: splitting into lines,
processing each line and joining with newlines, then running the same
conversion again over the result, returns the once-converted text unchanged
for every input; and a line that already contains a canonical
`@\x7b shape:` token is left completely untouched by a conversion pass. -/
theorem C6_flow_conversion_idempotent :
    (∀ x : List Char,
      joinLinesCh (processFlowchartDiagramV2 (splitLinesCh
        (joinLinesCh (processFlowchartDiagramV2 (splitLinesCh x))))) =
      joinLinesCh (processFlowchartDiagramV2 (splitLinesCh x)))
    ∧ ∀ line : List Char, containsSub line shapeTokSub = true →
        processFlowLineV2 line = line := by
  constructor
  · intro x
    have hnn : ∀ l ∈ processFlowchartDiagramV2 (splitLinesCh x), ¬(nlChar ∈ l) := by
      intro l hl
      unfold processFlowchartDiagramV2 at hl
      rcases List.mem_map.mp hl with ⟨l0, hl0, he⟩
      rw [← he]
      exact processFlowLineV2_noNL l0 (splitLinesCh_noNL x l0 hl0)
    have hne : processFlowchartDiagramV2 (splitLinesCh x) ≠ [] := by
      unfold processFlowchartDiagramV2
      intro h
      exact splitLinesCh_ne_nil x (List.map_eq_nil.mp h)
    rw [splitLinesCh_joinLinesCh _ hne hnn, processFlowchartDiagramV2_idem]
  · intro line h
    unfold processFlowLineV2
    by_cases hb : (jsTrim line).isEmpty = true
    · rw [if_pos hb]
    · rw [if_neg hb, if_pos h]

/-- Witness for C6: a concrete line containing a canonical shape token and its
untouched pass-through. -/
theorem C6_flow_conversion_idempotent_witness :
    containsSub (("A@\x7b shape: rect, label: \"Start\" \x7d").data) shapeTokSub = true ∧
    processFlowLineV2 (("A@\x7b shape: rect, label: \"Start\" \x7d").data) =
      ("A@\x7b shape: rect, label: \"Start\" \x7d").data :=
  ⟨by decide, C6_flow_conversion_idempotent.2 _ (by decide)⟩
